import Mathlib

/-!
# Verification of `scripts/prepare_gdpr.py`

A shallow embedding of the GDPR text-preparation script.  Text is modelled as
`List Char`; each regular-expression transformation of the script is rendered
as an executable function that follows the Python `re` semantics (leftmost
scanning, greedy/lazy quantifiers, `MULTILINE` anchors) for the concrete
pattern in question.  Whitespace and digit classes are modelled over their
ASCII members (the only ones the GDPR pipeline manipulates).

Source functions embedded here:
* `clean_gdpr_text`  — box-character removal, per-line whitespace collapse
  and strip, recital-prefix fix, newline-run collapse, leading-newline strip,
  plus the statistics block.
* `generate_expected_json` — chapter, article and definition extraction.
* `main` — argument handling and reporting.
-/

abbrev Text := List Char

def strL (s : String) : Text := s.data

/-- Horizontal whitespace, the class `[ \t]` of the per-line collapse. -/
def isHT (c : Char) : Bool := c = ' ' || c = '\t'

/-- ASCII members of Python's `\s` / `str.strip()` whitespace. -/
def isPyWS (c : Char) : Bool :=
  c = ' ' || c = '\t' || c = '\n' || c = '\r' || c = Char.ofNat 11 || c = Char.ofNat 12

/-- The class `[-+]` of the box-border pattern. -/
def boxChar (c : Char) : Bool := c = '+' || c = '-'

/-- Index of the last `'+'` in a list, if any. -/
def lastPlus : Text → Option Nat
  | [] => none
  | c :: rest =>
    match lastPlus rest with
    | some j => some (j + 1)
    | none => if c = '+' then some 0 else none

/-- Length of the (leftmost, greedy) match of `\+[-+]+\+` starting at the head
of `s`, if any: a `'+'`, then a maximal `[-+]` run, backtracking the greedy
`[-+]+` until a final `'+'` is available. -/
def boxLen (s : Text) : Option Nat :=
  match s with
  | c :: rest =>
    if c = '+' then
      match lastPlus (rest.takeWhile boxChar) with
      | some j => if 1 ≤ j then some (j + 2) else none
      | none => none
    else none
  | [] => none

/-- One pass of `re.sub(r'\+[-+]+\+', '', text)`: scan left to right, deleting
each match and continuing after its end.  `fuel` bounds the recursion; the
wrapper passes the text length, which suffices since every step consumes at
least one character. -/
def removeBoxF : Nat → Text → Text
  | 0, _ => []
  | _ + 1, [] => []
  | fuel + 1, c :: rest =>
    match boxLen (c :: rest) with
    | some L => removeBoxF fuel (List.drop L (c :: rest))
    | none => c :: removeBoxF fuel rest

def removeBox (t : Text) : Text := removeBoxF t.length t

/-- `re.sub(r'\|', '', text)`. -/
def noBar (t : Text) : Text := t.filter (fun c => c ≠ '|')

/-- `text.split('\n')`. -/
def splitLines : Text → List Text
  | [] => [[]]
  | c :: rest =>
    if c = '\n' then [] :: splitLines rest
    else
      match splitLines rest with
      | [] => [[c]]
      | l :: ls => (c :: l) :: ls

/-- `'\n'.join(lines)`. -/
def joinLines : List Text → Text
  | [] => []
  | [l] => l
  | l :: ls => l ++ '\n' :: joinLines ls

/-- `re.sub(r'[ \t]+', ' ', line)`: the flag records whether the previous
character was part of a horizontal-whitespace run already replaced. -/
def collapseWSA : Bool → Text → Text
  | _, [] => []
  | inWS, c :: rest =>
    if isHT c then
      if inWS then collapseWSA true rest else ' ' :: collapseWSA true rest
    else c :: collapseWSA false rest

def collapseWS (l : Text) : Text := collapseWSA false l

/-- `line.strip()` over the ASCII whitespace set. -/
def stripLine (l : Text) : Text :=
  ((l.dropWhile isPyWS).reverse.dropWhile isPyWS).reverse

/-- One cleaned line: collapse runs of spaces and tabs, then strip. -/
def normLine (l : Text) : Text := stripLine (collapseWS l)

/-- Lines 28–30 of the script: split, per-line collapse and strip, re-join. -/
def normalizeLines (t : Text) : Text := joinLines ((splitLines t).map normLine)

/-- The part of a `re.MULTILINE` match of `^\((\d+)\)\s*` after the opening
parenthesis: the digit group, the rest of the text after the consumed `\s*`,
and whether the last consumed whitespace character was a newline (in which
case scanning resumes at a line start). -/
def parseRec (s : Text) : Option (Text × Text × Bool) :=
  let ds := s.takeWhile Char.isDigit
  if ds.isEmpty then none
  else
    match s.drop ds.length with
    | c1 :: s2 =>
      if c1 = ')' then
        let ws := s2.takeWhile isPyWS
        some (ds, s2.drop ws.length, ws.getLast? == some '\n')
      else none
    | [] => none

/-- `re.sub(r'^\((\d+)\)\s*', r'(\1) ', text, flags=re.MULTILINE)`.
`atLS` tracks whether the current position is a line start (position 0 or
just after a `'\n'`), where the `^` anchor can match. -/
def fixRecF : Nat → Bool → Text → Text
  | 0, _, _ => []
  | _ + 1, _, [] => []
  | fuel + 1, atLS, c :: rest =>
    if atLS ∧ c = '(' then
      match parseRec rest with
      | some (ds, rest2, nl) => '(' :: (ds ++ ')' :: ' ' :: fixRecF fuel nl rest2)
      | none => c :: fixRecF fuel (c == '\n') rest
    else c :: fixRecF fuel (c == '\n') rest

def fixRec (t : Text) : Text := fixRecF t.length true t

/-- `re.sub(r'\n{3,}', '\n\n', text)`: keep the first two newlines of every
run, drop the rest.  `n` counts the newlines of the current run already
emitted. -/
def collapseNLA : Nat → Text → Text
  | _, [] => []
  | n, c :: rest =>
    if c = '\n' then
      if 2 ≤ n then collapseNLA n rest else '\n' :: collapseNLA (n + 1) rest
    else c :: collapseNLA 0 rest

def collapseNL (t : Text) : Text := collapseNLA 0 t

/-- `text.lstrip('\n')`. -/
def stripLead (t : Text) : Text := t.dropWhile (fun c => c = '\n')

/-- The full text transformation of `clean_gdpr_text` (lines 24–40): the
cleaned text that is written to the output file. -/
def cleanText (t : Text) : Text :=
  stripLead (collapseNL (fixRec (normalizeLines (noBar (removeBox t)))))

/-! ## Statistics (`clean_gdpr_text`, lines 46–70) -/

def natOfDigits (ds : Text) : Nat := ds.foldl (fun a c => 10 * a + (c.toNat - 48)) 0

/-- Decimal rendering of a natural number (Python `str`/f-string). -/
def natReprF : Nat → Nat → Text
  | 0, _ => []
  | fuel + 1, n =>
    if n < 10 then [Char.ofNat (48 + n)]
    else natReprF fuel (n / 10) ++ [Char.ofNat (48 + n % 10)]

def natRepr (n : Nat) : Text := natReprF (n + 1) n

/-- `^Article (\d+)$`, applied per line: the line is exactly `Article `
followed by one or more digits. -/
def artLineNum (l : Text) : Option Nat :=
  if (strL "Article ").isPrefixOf l then
    let ds := l.drop 8
    if ds ≠ [] ∧ ds.all Char.isDigit then some (natOfDigits ds) else none
  else none

def isRoman (c : Char) : Bool := c = 'I' || c = 'V' || c = 'X'

/-- `^CHAPTER ([IVX]+)$`, applied per line. -/
def chapLineRoman (l : Text) : Option Text :=
  if (strL "CHAPTER ").isPrefixOf l then
    let rs := l.drop 8
    if rs ≠ [] ∧ rs.all isRoman then some rs else none
  else none

/-- `^\((\d+)\) `, applied per line (a prefix match: the rest of the line is
unconstrained). -/
def recLineNum (l : Text) : Option Nat :=
  match l with
  | '(' :: r =>
    let ds := r.takeWhile Char.isDigit
    if ds.isEmpty then none
    else
      match r.drop ds.length with
      | ')' :: ' ' :: _ => some (natOfDigits ds)
      | _ => none
  | _ => none

/-- First-occurrence deduplication of a number list (`set(...)` collected for
counting and min/max; order is irrelevant to the fields derived from it). -/
def dedupN : List Nat → List Nat → List Nat
  | _, [] => []
  | seen, n :: rest =>
    if n ∈ seen then dedupN seen rest else n :: dedupN (n :: seen) rest

def artNumsOf (t : Text) : List Nat := (splitLines t).filterMap artLineNum

def uniqArts (t : Text) : List Nat := dedupN [] (artNumsOf t)

def recNumsOf (t : Text) : List Nat := (splitLines t).filterMap recLineNum

def uniqRecs (t : Text) : List Nat := dedupN [] (recNumsOf t)

def chapRomansOf (t : Text) : List Text := (splitLines t).filterMap chapLineRoman

/-- `f"{min(u)}-{max(u)}" if u else "none"`. -/
def rangeText (ns : List Nat) : Text :=
  match ns with
  | [] => strL "none"
  | n :: rest => natRepr (rest.foldl Nat.min n) ++ '-' :: natRepr (rest.foldl Nat.max n)

structure GdprStats where
  total_lines : Nat
  total_chars : Nat
  chapters : Nat
  chapter_list : List Text
  articles : Nat
  article_range : Text
  recitals : Nat
  recital_range : Text
deriving Repr, DecidableEq

/-- The `stats` dictionary, computed on the final cleaned text. -/
def statsOf (t : Text) : GdprStats :=
  { total_lines := (splitLines t).length
    total_chars := t.length
    chapters := (chapRomansOf t).length
    chapter_list := chapRomansOf t
    articles := (uniqArts t).length
    article_range := rangeText (uniqArts t)
    recitals := (uniqRecs t).length
    recital_range := rangeText (uniqRecs t) }

/-- `clean_gdpr_text`: the text written to the output file together with the
returned statistics. -/
def cleanRun (raw : Text) : Text × GdprStats :=
  (cleanText raw, statsOf (cleanText raw))

/-! ## Structural extractor (`generate_expected_json`) -/

/-- The lookahead `(?=\n\n|$)` of the chapter pattern under `re.MULTILINE`:
`$` matches at the end of the string and before every `'\n'`, so the
lookahead succeeds exactly when the rest is empty or starts with a newline. -/
def lookBlank (r : Text) : Bool := r.isEmpty || r.head? == some '\n'

/-- The lazy group `(.+?)` (no DOTALL: `.` never matches `'\n'`) followed by
the lookahead above: grow one character at a time, stopping at the first
position where the lookahead holds. -/
def lazyDotPlus : Text → Option (Text × Text)
  | [] => none
  | c :: rest =>
    if c = '\n' then none
    else if lookBlank rest then some ([c], rest)
    else
      match lazyDotPlus rest with
      | some (ti, r) => some (c :: ti, r)
      | none => none

/-- The heading part shared by the code pattern and the claim wording:
`CHAPTER <roman>` as a full line followed by exactly one blank line; returns
the roman group and the rest after the two newlines. -/
def chapHead (s : Text) : Option (Text × Text) :=
  if (strL "CHAPTER ").isPrefixOf s then
    let s1 := s.drop 8
    let rs := s1.takeWhile isRoman
    if rs.isEmpty then none
    else
      match s1.drop rs.length with
      | '\n' :: '\n' :: s2 => some (rs, s2)
      | _ => none
  else none

/-- A match of `^CHAPTER ([IVX]+)\n\n(.+?)(?=\n\n|$)` starting at `s` (the
caller guarantees the line-start anchor): returns the chapter entry
`(roman numeral, stripped title)` and the match length. -/
def chapMatch (s : Text) : Option ((Text × Text) × Nat) :=
  match chapHead s with
  | some (rs, s2) =>
    match lazyDotPlus s2 with
    | some (ti, _) => some ((rs, stripLine ti), 8 + rs.length + 2 + ti.length)
    | none => none
  | none => none

/-- `re.finditer` scan for the chapter pattern: try a match at every line
start, continue after each match end, advance one character on failure. -/
def chapScanF : Nat → Bool → Text → List (Text × Text)
  | 0, _, _ => []
  | _ + 1, _, [] => []
  | fuel + 1, atLS, c :: rest =>
    if atLS then
      match chapMatch (c :: rest) with
      | some (e, L) => e :: chapScanF fuel false (List.drop L (c :: rest))
      | none => chapScanF fuel (c == '\n') rest
    else chapScanF fuel (c == '\n') rest

def chaptersOf (t : Text) : List (Text × Text) := chapScanF t.length true t

/-- A match of `^Article (\d+)\n+([^\n]+)` starting at `s`: article number,
stripped first title line, match length. -/
def artMatch (s : Text) : Option ((Nat × Text) × Nat) :=
  if (strL "Article ").isPrefixOf s then
    let s1 := s.drop 8
    let ds := s1.takeWhile Char.isDigit
    if ds.isEmpty then none
    else
      let s2 := s1.drop ds.length
      let nl := s2.takeWhile (fun c => c = '\n')
      if nl.isEmpty then none
      else
        let s3 := s2.drop nl.length
        let ti := s3.takeWhile (fun c => c ≠ '\n')
        if ti.isEmpty then none
        else some ((natOfDigits ds, stripLine ti), 8 + ds.length + nl.length + ti.length)
  else none

/-- `re.finditer` scan for the article pattern. -/
def artScanF : Nat → Bool → Text → List (Nat × Text)
  | 0, _, _ => []
  | _ + 1, _, [] => []
  | fuel + 1, atLS, c :: rest =>
    if atLS then
      match artMatch (c :: rest) with
      | some (e, L) => e :: artScanF fuel false (List.drop L (c :: rest))
      | none => artScanF fuel (c == '\n') rest
    else artScanF fuel (c == '\n') rest

/-- The `articles` list before deduplication, in scan order. -/
def rawArticles (t : Text) : List (Nat × Text) := artScanF t.length true t

/-- The `seen_articles` loop: keep the first entry for each number. -/
def dedupArts : List Nat → List (Nat × Text) → List (Nat × Text)
  | _, [] => []
  | seen, p :: rest =>
    if p.1 ∈ seen then dedupArts seen rest else p :: dedupArts (p.1 :: seen) rest

def articleLE (a b : Nat × Text) : Prop := a.1 ≤ b.1

instance : DecidableRel articleLE := fun a b => Nat.decLe a.1 b.1

instance : IsTotal (Nat × Text) articleLE := ⟨fun a b => Nat.le_total a.1 b.1⟩

instance : IsTrans (Nat × Text) articleLE := ⟨fun _ _ _ h h2 => Nat.le_trans h h2⟩

/-- `sorted(seen_articles.values(), key=lambda x: x['number'])`. -/
def articlesOf (t : Text) : List (Nat × Text) :=
  List.insertionSort articleLE (dedupArts [] (rawArticles t))

/-- `text.find(sub)` (as an `Option` instead of `-1`). -/
def findSub (pat : Text) : Text → Option Nat
  | [] => if pat.isEmpty then some 0 else none
  | c :: rest =>
    if pat.isPrefixOf (c :: rest) then some 0
    else (findSub pat rest).map (· + 1)

/-- `text[a:b]`. -/
def sliceT (t : Text) (a b : Nat) : Text := (t.drop a).take (b - a)

/-- The quote class of the definition pattern: straight single and double
quotes and the curly single quotes U+2018 / U+2019. -/
def isQuote (c : Char) : Bool :=
  c = '\'' || c = '"' || c = Char.ofNat 8216 || c = Char.ofNat 8217

/-- A match of the definition pattern
`\((\d+)\)\s*[Q]([^Q]+)[Q]` (Q the quote class) at the head of `s`:
the definition entry `(number, stripped term)` and the match length. -/
def defMatch (s : Text) : Option ((Nat × Text) × Nat) :=
  match s with
  | c0 :: s1 =>
    if c0 = '(' then
      let ds := s1.takeWhile Char.isDigit
      if ds.isEmpty then none
      else
        match s1.drop ds.length with
        | c1 :: s2 =>
          if c1 = ')' then
            let ws := s2.takeWhile isPyWS
            match s2.drop ws.length with
            | q :: s3 =>
              if isQuote q then
                let te := s3.takeWhile (fun c => !(isQuote c))
                if te.isEmpty then none
                else
                  match s3.drop te.length with
                  | q2 :: _ =>
                    if isQuote q2 then
                      some ((natOfDigits ds, stripLine te),
                            1 + ds.length + 1 + ws.length + 1 + te.length + 1)
                    else none
                  | [] => none
              else none
            | [] => none
          else none
        | [] => none
    else none
  | [] => none

/-- `re.finditer` scan for the definition pattern (no anchor: every position
is tried). -/
def defScanF : Nat → Text → List (Nat × Text)
  | 0, _ => []
  | _ + 1, [] => []
  | fuel + 1, c :: rest =>
    match defMatch (c :: rest) with
    | some (e, L) => e :: defScanF fuel (List.drop L (c :: rest))
    | none => defScanF fuel rest

def defScan (w : Text) : List (Nat × Text) := defScanF w.length w

def head4 : Text := strL "\nArticle 4\n"

def head5 : Text := strL "\nArticle 5\n"

/-- The definitions list of `generate_expected_json` (lines 112–125):
window by `text.find('\nArticle 4\n')` and `text.find('\nArticle 5\n')`,
empty if either is missing. -/
def defsOf (t : Text) : List (Nat × Text) :=
  match findSub head4 t, findSub head5 t with
  | some a, some b => defScan (sliceT t a b)
  | _, _ => []

/-- The full expected-output record. -/
structure ExpectedOut where
  chapters : List (Text × Text)
  articles : List (Nat × Text)
  definitions : List (Nat × Text)
  chapterCount : Nat
  articleCount : Nat
  definitionCount : Nat
deriving Repr, DecidableEq

def expectedOf (t : Text) : ExpectedOut :=
  { chapters := chaptersOf t
    articles := articlesOf t
    definitions := defsOf t
    chapterCount := (chaptersOf t).length
    articleCount := (articlesOf t).length
    definitionCount := (defsOf t).length }

/-! ## Spec-side definitions used to state the claims

These follow the wording of the specification (not the code) and are compared
against the code-derived functions above. -/

/-- Following the claim wording for C1/C4 boundary search: `s` begins with
`content` as a full line (followed by a newline or the end of text). -/
def lineAt (content : Text) (s : Text) : Bool :=
  content.isPrefixOf s && ((s.drop content.length).head?.all (fun c => c = '\n'))

/-- First line-start occurrence of `content` as a full line. -/
def lsFindF : Nat → Text → Nat → Bool → Text → Option Nat
  | 0, _, _, _, _ => none
  | _ + 1, content, pos, atLS, [] =>
    if atLS && lineAt content [] then some pos else none
  | fuel + 1, content, pos, atLS, c :: rest =>
    if atLS && lineAt content (c :: rest) then some pos
    else lsFindF fuel content (pos + 1) (c == '\n') rest

def lsFind (content t : Text) : Option Nat := lsFindF (t.length + 1) content 0 true t

/-- The definitions list as the C1 claim words it: the window runs from the
first line-start occurrence of the heading `Article 4` to the first
line-start occurrence of the heading `Article 5`. -/
def specDefsC1 (t : Text) : List (Nat × Text) :=
  match lsFind (strL "Article 4") t, lsFind (strL "Article 5") t with
  | some a, some b => defScan (sliceT t a b)
  | _, _ => []

/-- The C4 claim's title group: the non-empty text immediately following,
terminated by the next blank line or the end of text (so it may span several
physical lines). -/
def specTitleC4 : Text → Option Text
  | [] => none
  | '\n' :: '\n' :: _ => none
  | c :: rest =>
    match specTitleC4 rest with
    | some ti => some (c :: ti)
    | none => some [c]

/-- Chapter match as the C4 claim words it. -/
def specChapMatchC4 (s : Text) : Option ((Text × Text) × Nat) :=
  match chapHead s with
  | some (rs, s2) =>
    match specTitleC4 s2 with
    | some ti => some ((rs, stripLine ti), 8 + rs.length + 2 + ti.length)
    | none => none
  | none => none

def specChapScanC4 : Nat → Bool → Text → List (Text × Text)
  | 0, _, _ => []
  | _ + 1, _, [] => []
  | fuel + 1, atLS, c :: rest =>
    if atLS then
      match specChapMatchC4 (c :: rest) with
      | some (e, L) => e :: specChapScanC4 fuel false (List.drop L (c :: rest))
      | none => specChapScanC4 fuel (c == '\n') rest
    else specChapScanC4 fuel (c == '\n') rest

def specChaptersC4 (t : Text) : List (Text × Text) := specChapScanC4 t.length true t

/-- Chapter match with the amended title group: the title is the rest of the
single physical line following the blank line. -/
def amdChapMatch (s : Text) : Option ((Text × Text) × Nat) :=
  match chapHead s with
  | some (rs, s2) =>
    let ti := s2.takeWhile (fun c => c ≠ '\n')
    if ti.isEmpty then none
    else some ((rs, stripLine ti), 8 + rs.length + 2 + ti.length)
  | none => none

def amdChapScan : Nat → Bool → Text → List (Text × Text)
  | 0, _, _ => []
  | _ + 1, _, [] => []
  | fuel + 1, atLS, c :: rest =>
    if atLS then
      match amdChapMatch (c :: rest) with
      | some (e, L) => e :: amdChapScan fuel false (List.drop L (c :: rest))
      | none => amdChapScan fuel (c == '\n') rest
    else amdChapScan fuel (c == '\n') rest

def amdChaptersOf (t : Text) : List (Text × Text) := amdChapScan t.length true t

/-! ## Command-line model (`main`) -/

theorem headD_cons_tail {α : Type} (l : List (List α)) (h : l ≠ []) :
    l.headD [] :: l.tail = l := by
  cases l with
  | nil => exact absurd rfl h
  | cons a t => rfl

theorem dropWhile_head_false {p : Char → Bool} {l : Text} {c : Char}
    (h : (l.dropWhile p).head? = some c) : p c = false := by
  induction l with
  | nil => simp [List.dropWhile] at h
  | cons a t ih =>
    by_cases hp : p a
    · rw [List.dropWhile_cons_of_pos hp] at h; exact ih h
    · rw [List.dropWhile_cons_of_neg (by simpa using hp)] at h
      simp at h
      subst h
      simpa using hp

theorem takeWhile_append_stop {p : Char → Bool} {x : Text} (y : Text)
    (h : (x.takeWhile p).length < x.length) :
    (x ++ y).takeWhile p = x.takeWhile p := by
  induction x with
  | nil => simp at h
  | cons a t ih =>
    by_cases hp : p a
    · rw [List.takeWhile_cons_of_pos hp] at h ⊢
      rw [List.cons_append, List.takeWhile_cons_of_pos hp]
      simp only [List.length_cons, Nat.add_lt_add_iff_right] at h
      rw [ih h]
    · rw [List.cons_append, List.takeWhile_cons_of_neg (by simpa using hp),
        List.takeWhile_cons_of_neg (by simpa using hp)]

theorem drop_append_le {α : Type} {n : Nat} {x : List α} (y : List α)
    (h : n ≤ x.length) : (x ++ y).drop n = x.drop n ++ y := by
  rw [List.drop_append_eq_append_drop, Nat.sub_eq_zero_of_le h, List.drop_zero]

/-! ## No-op lemmas for the cleaning steps -/

theorem boxLen_none {c : Char} {r : Text} (h : c ≠ '+') :
    boxLen (c :: r) = none := by
  show (if c = '+' then _ else none) = none
  rw [if_neg h]

theorem removeBoxF_noop : ∀ (fuel : Nat) (t : Text), t.length ≤ fuel →
    '+' ∉ t → removeBoxF fuel t = t := by
  intro fuel
  induction fuel with
  | zero =>
    intro t ht _
    cases t with
    | nil => rfl
    | cons c r => simp at ht
  | succ f ih =>
    intro t ht hp
    cases t with
    | nil => rfl
    | cons c r =>
      have hc : c ≠ '+' := fun h => hp (h ▸ List.mem_cons_self c r)
      show removeBoxF (f + 1) (c :: r) = c :: r
      unfold removeBoxF
      rw [boxLen_none hc]
      have : removeBoxF f r = r :=
        ih r (by simpa using Nat.le_of_succ_le_succ ht)
          (fun h => hp (List.mem_cons_of_mem c h))
      rw [this]

theorem removeBox_noop {t : Text} (hp : '+' ∉ t) : removeBox t = t :=
  removeBoxF_noop t.length t (Nat.le_refl _) hp

theorem noBar_noop {t : Text} (hb : '|' ∉ t) : noBar t = t := by
  unfold noBar
  rw [List.filter_eq_self]
  intro c hc
  simp only [ne_eq, decide_not, Bool.not_eq_eq_eq_not, Bool.not_true, decide_eq_false_iff_not]
  exact fun h => hb (h ▸ hc)

theorem fixRecF_noop : ∀ (fuel : Nat) (b : Bool) (t : Text), t.length ≤ fuel →
    '(' ∉ t → fixRecF fuel b t = t := by
  intro fuel
  induction fuel with
  | zero =>
    intro b t ht _
    cases t with
    | nil => rfl
    | cons c r => simp at ht
  | succ f ih =>
    intro b t ht hp
    cases t with
    | nil => rfl
    | cons c r =>
      have hc : ¬ (b = true ∧ c = '(') :=
        fun h => hp (h.2 ▸ List.mem_cons_self c r)
      show fixRecF (f + 1) b (c :: r) = c :: r
      unfold fixRecF
      rw [if_neg hc]
      have : fixRecF f (c == '\n') r = r :=
        ih _ r (by simpa using Nat.le_of_succ_le_succ ht)
          (fun h => hp (List.mem_cons_of_mem c h))
      rw [this]

theorem fixRec_noop {t : Text} (hp : '(' ∉ t) : fixRec t = t :=
  fixRecF_noop t.length true t (Nat.le_refl _) hp

/-! ## Lines: `splitLines` and `joinLines` -/

theorem splitLines_ne_nil (t : Text) : splitLines t ≠ [] := by
  cases t with
  | nil => simp [splitLines]
  | cons c r =>
    unfold splitLines
    by_cases h : c = '\n'
    · simp [h]
    · rw [if_neg h]
      split <;> simp

theorem splitLines_cons_nl (r : Text) : splitLines ('\n' :: r) = [] :: splitLines r := by
  simp [splitLines]

theorem splitLines_cons_other {c : Char} (r : Text) (h : c ≠ '\n') :
    splitLines (c :: r) =
      (c :: (splitLines r).headD []) :: (splitLines r).tail := by
  conv_lhs => unfold splitLines
  rw [if_neg h]
  have hne := splitLines_ne_nil r
  cases hsp : splitLines r with
  | nil => exact absurd hsp hne
  | cons l ls => rfl

theorem joinLines_cons {l : Text} {ls : List Text} (h : ls ≠ []) :
    joinLines (l :: ls) = l ++ '\n' :: joinLines ls := by
  cases ls with
  | nil => exact absurd rfl h
  | cons a t => rfl

theorem joinLines_splitLines (t : Text) : joinLines (splitLines t) = t := by
  induction t with
  | nil => rfl
  | cons c r ih =>
    by_cases h : c = '\n'
    · subst h
      rw [splitLines_cons_nl, joinLines_cons (splitLines_ne_nil r)]
      simp [ih]
    · rw [splitLines_cons_other r h]
      have hne := splitLines_ne_nil r
      cases hsp : splitLines r with
      | nil => exact absurd hsp hne
      | cons l ls =>
        rw [hsp] at ih
        cases ls with
        | nil =>
          simp [joinLines] at ih ⊢
          exact ih
        | cons l2 ls2 =>
          simp only [List.headD, List.tail]
          rw [joinLines_cons (by simp), List.cons_append]
          rw [joinLines_cons (by simp)] at ih
          rw [ih]

theorem splitLines_noNL {t : Text} {l : Text} (h : l ∈ splitLines t) : '\n' ∉ l := by
  induction t generalizing l with
  | nil =>
    simp [splitLines] at h
    subst h; simp
  | cons c r ih =>
    by_cases hc : c = '\n'
    · subst hc
      rw [splitLines_cons_nl] at h
      rcases List.mem_cons.mp h with h | h
      · subst h; simp
      · exact ih h
    · rw [splitLines_cons_other r hc] at h
      have hne := splitLines_ne_nil r
      cases hsp : splitLines r with
      | nil => exact absurd hsp hne
      | cons l0 ls =>
        rw [hsp] at h
        simp only [List.headD, List.tail] at h
        rcases List.mem_cons.mp h with h | h
        · subst h
          intro hmem
          rcases List.mem_cons.mp hmem with h2 | h2
          · exact hc h2.symm
          · exact ih (by rw [hsp]; exact List.mem_cons_self l0 ls) h2
        · exact ih (by rw [hsp]; exact List.mem_cons_of_mem l0 h)

theorem splitLines_of_noNL {l : Text} (h : '\n' ∉ l) : splitLines l = [l] := by
  induction l with
  | nil => rfl
  | cons c r ih =>
    have hc : c ≠ '\n' := fun he => h (he ▸ List.mem_cons_self c r)
    rw [splitLines_cons_other r hc, ih (fun hm => h (List.mem_cons_of_mem c hm))]
    rfl

theorem splitLines_append_noNL {a : Text} (z : Text) (h : '\n' ∉ a) :
    splitLines (a ++ z) = (a ++ (splitLines z).headD []) :: (splitLines z).tail := by
  induction a with
  | nil =>
    simp only [List.nil_append]
    exact (headD_cons_tail _ (splitLines_ne_nil z)).symm
  | cons c r ih =>
    have hc : c ≠ '\n' := fun he => h (he ▸ List.mem_cons_self c r)
    rw [List.cons_append, splitLines_cons_other _ hc,
      ih (fun hm => h (List.mem_cons_of_mem c hm))]
    rfl

theorem mem_splitLines_mem {t l : Text} {c : Char} (hl : l ∈ splitLines t)
    (hc : c ∈ l) : c ∈ t := by
  induction t generalizing l with
  | nil =>
    simp [splitLines] at hl
    subst hl; simp at hc
  | cons d r ih =>
    by_cases hd : d = '\n'
    · subst hd
      rw [splitLines_cons_nl] at hl
      rcases List.mem_cons.mp hl with h | h
      · subst h; simp at hc
      · exact List.mem_cons_of_mem _ (ih h hc)
    · rw [splitLines_cons_other r hd] at hl
      have hne := splitLines_ne_nil r
      cases hsp : splitLines r with
      | nil => exact absurd hsp hne
      | cons l0 ls =>
        rw [hsp] at hl
        simp only [List.headD, List.tail] at hl
        rcases List.mem_cons.mp hl with h | h
        · subst h
          rcases List.mem_cons.mp hc with h2 | h2
          · exact h2 ▸ List.mem_cons_self d r
          · exact List.mem_cons_of_mem _
              (ih (by rw [hsp]; exact List.mem_cons_self l0 ls) h2)
        · exact List.mem_cons_of_mem _
            (ih (by rw [hsp]; exact List.mem_cons_of_mem l0 h) hc)

theorem mem_joinLines {ls : List Text} {c : Char} (h : c ∈ joinLines ls) :
    (∃ l ∈ ls, c ∈ l) ∨ c = '\n' := by
  induction ls with
  | nil => simp [joinLines] at h
  | cons l ls ih =>
    cases ls with
    | nil =>
      left
      exact ⟨l, List.mem_cons_self l [], by simpa [joinLines] using h⟩
    | cons l2 ls2 =>
      rw [joinLines_cons (by simp)] at h
      rcases List.mem_append.mp h with h | h
      · exact Or.inl ⟨l, List.mem_cons_self _ _, h⟩
      · rcases List.mem_cons.mp h with h | h
        · exact Or.inr h
        · rcases ih h with ⟨l3, hl3, hc3⟩ | h
          · exact Or.inl ⟨l3, List.mem_cons_of_mem l hl3, hc3⟩
          · exact Or.inr h

/-! ## Character tracking through the pipeline -/

theorem mem_collapseWSA {b : Bool} {l : Text} {c : Char}
    (h : c ∈ collapseWSA b l) : c ∈ l ∨ c = ' ' := by
  induction l generalizing b with
  | nil => simp [collapseWSA] at h
  | cons a t ih =>
    unfold collapseWSA at h
    by_cases ha : isHT a
    · rw [if_pos ha] at h
      cases b with
      | true =>
        simp only [if_pos rfl] at h
        rcases ih h with h | h
        · exact Or.inl (List.mem_cons_of_mem a h)
        · exact Or.inr h
      | false =>
        rw [if_neg Bool.false_ne_true] at h
        rcases List.mem_cons.mp h with h | h
        · exact Or.inr h
        · rcases ih h with h | h
          · exact Or.inl (List.mem_cons_of_mem a h)
          · exact Or.inr h
    · rw [if_neg ha] at h
      rcases List.mem_cons.mp h with h | h
      · exact Or.inl (h ▸ List.mem_cons_self a t)
      · rcases ih h with h | h
        · exact Or.inl (List.mem_cons_of_mem a h)
        · exact Or.inr h

theorem mem_stripLine {l : Text} {c : Char} (h : c ∈ stripLine l) : c ∈ l := by
  unfold stripLine at h
  rw [List.mem_reverse] at h
  have h2 := List.dropWhile_subset isPyWS h
  rw [List.mem_reverse] at h2
  exact List.dropWhile_subset isPyWS h2

theorem mem_normLine {l : Text} {c : Char} (h : c ∈ normLine l) : c ∈ l ∨ c = ' ' :=
  mem_collapseWSA (mem_stripLine h)

theorem mem_normalizeLines {t : Text} {c : Char} (h : c ∈ normalizeLines t) :
    c ∈ t ∨ c = ' ' ∨ c = '\n' := by
  unfold normalizeLines at h
  rcases mem_joinLines h with ⟨l, hl, hc⟩ | h
  · rcases List.mem_map.mp hl with ⟨l0, hl0, he⟩
    subst he
    rcases mem_normLine hc with h | h
    · exact Or.inl (mem_splitLines_mem hl0 h)
    · exact Or.inr (Or.inl h)
  · exact Or.inr (Or.inr h)

theorem mem_collapseNLA {n : Nat} {t : Text} {c : Char}
    (h : c ∈ collapseNLA n t) : c ∈ t := by
  induction t generalizing n with
  | nil => simp [collapseNLA] at h
  | cons a r ih =>
    unfold collapseNLA at h
    by_cases ha : a = '\n'
    · rw [if_pos ha] at h
      by_cases hn : 2 ≤ n
      · rw [if_pos hn] at h
        exact List.mem_cons_of_mem a (ih h)
      · rw [if_neg hn] at h
        rcases List.mem_cons.mp h with h | h
        · exact h ▸ ha ▸ List.mem_cons_self a r
        · exact List.mem_cons_of_mem a (ih h)
    · rw [if_neg ha] at h
      rcases List.mem_cons.mp h with h | h
      · exact h ▸ List.mem_cons_self a r
      · exact List.mem_cons_of_mem a (ih h)

theorem mem_stripLead {t : Text} {c : Char} (h : c ∈ stripLead t) : c ∈ t :=
  List.dropWhile_subset _ h

/-- Under the amendment hypotheses the first three steps are the identity. -/
theorem cleanText_eq_tail {t : Text} (hp : '+' ∉ t) (hb : '|' ∉ t) (hl : '(' ∉ t) :
    cleanText t = stripLead (collapseNL (normalizeLines t)) := by
  unfold cleanText
  rw [removeBox_noop hp, noBar_noop hb, fixRec_noop]
  intro h
  rcases mem_normalizeLines h with h | h | h
  · exact hl h
  · exact absurd h (by decide)
  · exact absurd h (by decide)

theorem mem_cleanText_tail {t : Text} {c : Char}
    (h : c ∈ stripLead (collapseNL (normalizeLines t))) : c ∈ t ∨ c = ' ' ∨ c = '\n' :=
  mem_normalizeLines (mem_collapseNLA (mem_stripLead h))

/-! ## Idempotence of the per-line normalization -/

/-- No two adjacent spaces. -/
def noPair (a b : Char) : Prop := ¬ (a = ' ' ∧ b = ' ')

theorem collapseWSA_head_true {l : Text} {c : Char}
    (h : (collapseWSA true l).head? = some c) : isHT c = false := by
  induction l with
  | nil => simp [collapseWSA] at h
  | cons a t ih =>
    unfold collapseWSA at h
    by_cases ha : isHT a
    · rw [if_pos ha, if_pos rfl] at h
      exact ih h
    · rw [if_neg ha] at h
      simp at h
      subst h
      simpa using ha

theorem collapseWSA_noTab (b : Bool) (l : Text) : '\t' ∉ collapseWSA b l := by
  induction l generalizing b with
  | nil => simp [collapseWSA]
  | cons a t ih =>
    unfold collapseWSA
    by_cases ha : isHT a
    · rw [if_pos ha]
      cases b with
      | true => rw [if_pos rfl]; exact ih true
      | false =>
        rw [if_neg Bool.false_ne_true]
        intro h
        rcases List.mem_cons.mp h with h | h
        · exact absurd h.symm (by decide)
        · exact ih true h
    · rw [if_neg ha]
      intro h
      rcases List.mem_cons.mp h with h | h
      · subst h
        exact ha (by simp [isHT])
      · exact ih false h

theorem collapseWSA_chain (b : Bool) (l : Text) :
    List.Chain' noPair (collapseWSA b l) := by
  induction l generalizing b with
  | nil => exact List.chain'_nil
  | cons a t ih =>
    unfold collapseWSA
    by_cases ha : isHT a
    · rw [if_pos ha]
      cases b with
      | true => rw [if_pos rfl]; exact ih true
      | false =>
        rw [if_neg Bool.false_ne_true]
        rw [List.chain'_cons']
        refine ⟨?_, ih true⟩
        intro y hy
        intro hc
        have := collapseWSA_head_true hy
        rw [hc.2] at this
        simp [isHT] at this
    · rw [if_neg ha]
      rw [List.chain'_cons']
      refine ⟨?_, ih false⟩
      intro y _ hc
      exact ha (by simp [isHT, hc.1])

theorem collapseWSA_state {t : Text}
    (h : ∀ c, t.head? = some c → isHT c = false) :
    collapseWSA true t = collapseWSA false t := by
  cases t with
  | nil => rfl
  | cons d r =>
    have hd : isHT d = false := h d rfl
    unfold collapseWSA
    rw [if_neg (by simp [hd]), if_neg (by simp [hd])]

theorem collapseWSA_id {l : Text} (hc : List.Chain' noPair l) (ht : '\t' ∉ l) :
    collapseWSA false l = l := by
  induction l with
  | nil => rfl
  | cons a t ih =>
    unfold collapseWSA
    by_cases ha : isHT a
    · have haSp : a = ' ' := by
        rcases (by simpa [isHT] using ha : a = ' ' ∨ a = '\t') with h | h
        · exact h
        · exact absurd (h ▸ List.mem_cons_self a t) ht
      rw [if_pos ha, if_neg Bool.false_ne_true]
      have hthead : ∀ c, t.head? = some c → isHT c = false := by
        intro c hcHead
        have hnp : noPair a c := (List.chain'_cons'.mp hc).1 c (by rw [hcHead]; rfl)
        have hcSp : c ≠ ' ' := fun hsp => hnp ⟨haSp, hsp⟩
        have hcTab : c ≠ '\t' := by
          intro hTab
          apply ht
          apply List.mem_cons_of_mem
          cases t with
          | nil => simp at hcHead
          | cons d r =>
            simp at hcHead
            rw [hcHead, hTab]
            exact List.mem_cons_self _ _
        simp [isHT, hcSp, hcTab]
      rw [collapseWSA_state hthead, haSp]
      rw [ih (List.chain'_cons'.mp hc).2 (fun hm => ht (List.mem_cons_of_mem a hm))]
    · rw [if_neg ha]
      rw [ih (List.chain'_cons'.mp hc).2 (fun hm => ht (List.mem_cons_of_mem a hm))]

theorem chain'_dropWhile {R : Char → Char → Prop} {p : Char → Bool} {l : Text}
    (h : List.Chain' R l) : List.Chain' R (l.dropWhile p) := by
  induction l with
  | nil => exact List.chain'_nil
  | cons a t ih =>
    by_cases hp : p a
    · rw [List.dropWhile_cons_of_pos hp]
      exact ih (List.chain'_cons'.mp h).2
    · rwa [List.dropWhile_cons_of_neg (by simpa using hp)]

theorem chain'_reverse_noPair {l : Text} (h : List.Chain' noPair l) :
    List.Chain' noPair l.reverse := by
  rw [List.chain'_reverse]
  exact List.Chain'.imp (fun a b hab hc => hab ⟨hc.2, hc.1⟩) h

theorem stripLine_chain {l : Text} (h : List.Chain' noPair l) :
    List.Chain' noPair (stripLine l) := by
  unfold stripLine
  exact chain'_reverse_noPair (chain'_dropWhile (chain'_reverse_noPair (chain'_dropWhile h)))

theorem dropWhile_eq_self_of_head {p : Char → Bool} {x : Text}
    (h : ∀ c, x.head? = some c → p c = false) : x.dropWhile p = x := by
  cases x with
  | nil => rfl
  | cons a t => exact List.dropWhile_cons_of_neg (by simp [h a rfl])

/-- `stripLine l` is a prefix of `l.dropWhile isPyWS`:
`l.dropWhile isPyWS = stripLine l ++ (dropped trailing whitespace)`. -/
theorem stripLine_decomp (l : Text) :
    l.dropWhile isPyWS =
      stripLine l ++ ((l.dropWhile isPyWS).reverse.takeWhile isPyWS).reverse := by
  unfold stripLine
  have h := List.takeWhile_append_dropWhile isPyWS (l.dropWhile isPyWS).reverse
  calc l.dropWhile isPyWS
      = (l.dropWhile isPyWS).reverse.reverse := (List.reverse_reverse _).symm
    _ = ((l.dropWhile isPyWS).reverse.takeWhile isPyWS ++
          (l.dropWhile isPyWS).reverse.dropWhile isPyWS).reverse := by rw [h]
    _ = _ := by rw [List.reverse_append]

theorem stripLine_head {l : Text} {c : Char}
    (h : (stripLine l).head? = some c) : isPyWS c = false := by
  have hne : stripLine l ≠ [] := by
    intro he
    rw [he] at h
    simp at h
  have hd := stripLine_decomp l
  have : (l.dropWhile isPyWS).head? = some c := by
    rw [hd, List.head?_append_of_ne_nil _ hne]
    exact h
  exact dropWhile_head_false this

theorem stripLine_last {l : Text} {c : Char}
    (h : (stripLine l).getLast? = some c) : isPyWS c = false := by
  unfold stripLine at h
  rw [List.getLast?_reverse] at h
  exact dropWhile_head_false h

theorem stripLine_noop {l : Text}
    (h1 : ∀ c, l.head? = some c → isPyWS c = false)
    (h2 : ∀ c, l.getLast? = some c → isPyWS c = false) : stripLine l = l := by
  unfold stripLine
  rw [dropWhile_eq_self_of_head h1]
  rw [dropWhile_eq_self_of_head (by
    intro c hc
    rw [List.head?_reverse] at hc
    exact h2 c hc)]
  exact List.reverse_reverse l

theorem normLine_idem (l : Text) : normLine (normLine l) = normLine l := by
  unfold normLine
  have hchain : List.Chain' noPair (stripLine (collapseWS l)) :=
    stripLine_chain (collapseWSA_chain false l)
  have htab : '\t' ∉ stripLine (collapseWS l) :=
    fun hm => collapseWSA_noTab false l (mem_stripLine hm)
  rw [show collapseWS (stripLine (collapseWS l)) = stripLine (collapseWS l) from
    collapseWSA_id hchain htab]
  exact stripLine_noop (fun c hc => stripLine_head hc) (fun c hc => stripLine_last hc)

theorem normLine_noNL {l : Text} (h : '\n' ∉ l) : '\n' ∉ normLine l := by
  intro hm
  rcases mem_normLine hm with hm | hm
  · exact h hm
  · exact absurd hm (by decide)

theorem normLine_nil : normLine [] = [] := rfl

/-! ## Newline-run collapse: structural lemmas -/

theorem collapseNLA_cons_nl_ge {n : Nat} (r : Text) (h : 2 ≤ n) :
    collapseNLA n ('\n' :: r) = collapseNLA n r := by
  simp [collapseNLA, h]

theorem collapseNLA_cons_nl_lt {n : Nat} (r : Text) (h : ¬ 2 ≤ n) :
    collapseNLA n ('\n' :: r) = '\n' :: collapseNLA (n + 1) r := by
  simp [collapseNLA, h]

theorem collapseNLA_cons_other {n : Nat} {c : Char} (r : Text) (h : c ≠ '\n') :
    collapseNLA n (c :: r) = c :: collapseNLA 0 r := by
  simp [collapseNLA, h]

theorem collapseNLA_head_reset {t : Text}
    (h : ∀ c, t.head? = some c → c ≠ '\n') (n : Nat) :
    collapseNLA n t = collapseNLA 0 t := by
  cases t with
  | nil => rfl
  | cons c r =>
    have hc : c ≠ '\n' := h c rfl
    rw [collapseNLA_cons_other r hc, collapseNLA_cons_other r hc]

theorem collapseNLA_append_noNL {a : Text} (z : Text) (h : '\n' ∉ a) :
    collapseNLA 0 (a ++ z) = a ++ collapseNLA 0 z := by
  induction a with
  | nil => simp
  | cons c r ih =>
    have hc : c ≠ '\n' := fun he => h (he ▸ List.mem_cons_self c r)
    rw [List.cons_append, collapseNLA_cons_other _ hc,
      ih (fun hm => h (List.mem_cons_of_mem c hm))]
    rfl

theorem collapseNLA_append_noNL_pos {a : Text} (z : Text) (h : '\n' ∉ a)
    (hne : a ≠ []) (n : Nat) : collapseNLA n (a ++ z) = a ++ collapseNLA 0 z := by
  cases a with
  | nil => exact absurd rfl hne
  | cons c r =>
    have hc : c ≠ '\n' := fun he => h (he ▸ List.mem_cons_self c r)
    rw [List.cons_append, collapseNLA_cons_other _ hc]
    rw [show r ++ z = r ++ z from rfl]
    have := @collapseNLA_append_noNL r z (fun hm => h (List.mem_cons_of_mem c hm))
    rw [this]
    rfl

theorem collapseNLA_noNL_id {b : Text} (h : '\n' ∉ b) (n : Nat) :
    collapseNLA n b = b := by
  induction b generalizing n with
  | nil => rfl
  | cons c r ih =>
    have hc : c ≠ '\n' := fun he => h (he ▸ List.mem_cons_self c r)
    rw [collapseNLA_cons_other r hc, ih (fun hm => h (List.mem_cons_of_mem c hm))]

theorem collapseNLA_run : ∀ (k n : Nat) (b : Text),
    (∀ c, b.head? = some c → c ≠ '\n') →
    collapseNLA n (List.replicate k '\n' ++ b) =
      List.replicate (min k (2 - n)) '\n' ++ collapseNLA 0 b := by
  intro k
  induction k with
  | zero =>
    intro n b hb
    simp only [List.replicate_zero, List.nil_append, Nat.zero_min]
    exact collapseNLA_head_reset hb n
  | succ k ih =>
    intro n b hb
    rw [List.replicate_succ, List.cons_append]
    by_cases hn : 2 ≤ n
    · rw [collapseNLA_cons_nl_ge _ hn, ih n b hb]
      have h1 : min k (2 - n) = 0 := by omega
      have h2 : min (k + 1) (2 - n) = 0 := by omega
      rw [h1, h2]
    · rw [collapseNLA_cons_nl_lt _ hn, ih (n + 1) b hb]
      have : min (k + 1) (2 - n) = min k (2 - (n + 1)) + 1 := by omega
      rw [this, List.replicate_succ, List.cons_append]

/-! ## The no-triple-newline invariant -/

/-- `t` contains no run of three consecutive newlines. -/
def noTriple (t : Text) : Prop := ¬ ∃ u v : Text, t = u ++ '\n' :: '\n' :: '\n' :: v

theorem noTriple_nil : noTriple [] := by
  rintro ⟨u, v, h⟩
  cases u <;> simp at h

theorem noTriple_tail {c : Char} {t : Text} (h : noTriple (c :: t)) : noTriple t := by
  rintro ⟨u, v, he⟩
  exact h ⟨c :: u, v, by rw [he]; rfl⟩

/-- Number of leading newlines. -/
def leadNL (t : Text) : Nat := (t.takeWhile (fun c => c = '\n')).length

theorem leadNL_cons_nl (r : Text) : leadNL ('\n' :: r) = leadNL r + 1 := by
  unfold leadNL
  rw [List.takeWhile_cons_of_pos (by simp)]
  simp

theorem leadNL_cons_other {c : Char} (r : Text) (h : c ≠ '\n') :
    leadNL (c :: r) = 0 := by
  unfold leadNL
  rw [List.takeWhile_cons_of_neg (by simpa using h)]
  rfl

theorem noTriple_cons {c : Char} {t : Text} (ht : noTriple t)
    (hc : ¬ (c = '\n' ∧ 2 ≤ leadNL t)) : noTriple (c :: t) := by
  rintro ⟨u, v, he⟩
  cases u with
  | nil =>
    simp only [List.nil_append] at he
    injection he with h1 h2
    apply hc
    refine ⟨h1, ?_⟩
    rw [h2, leadNL_cons_nl, leadNL_cons_nl]
    omega
  | cons d u2 =>
    injection he with h1 h2
    exact ht ⟨u2, v, h2⟩

theorem noTriple_lead {t : Text} (h : noTriple t) : leadNL t ≤ 2 := by
  by_contra hlt
  apply h
  cases t with
  | nil => simp [leadNL] at hlt
  | cons c1 r1 =>
    by_cases h1 : c1 = '\n'
    · subst h1
      cases r1 with
      | nil => rw [leadNL_cons_nl] at hlt; simp [leadNL] at hlt
      | cons c2 r2 =>
        by_cases h2 : c2 = '\n'
        · subst h2
          cases r2 with
          | nil =>
            rw [leadNL_cons_nl, leadNL_cons_nl] at hlt
            simp [leadNL] at hlt
          | cons c3 r3 =>
            by_cases h3 : c3 = '\n'
            · subst h3
              exact ⟨[], r3, rfl⟩
            · rw [leadNL_cons_nl, leadNL_cons_nl, leadNL_cons_other _ h3] at hlt
              omega
        · rw [leadNL_cons_nl, leadNL_cons_other _ h2] at hlt
          omega
    · rw [leadNL_cons_other _ h1] at hlt
      omega

theorem collapseNLA_bounded : ∀ (t : Text) (n : Nat),
    leadNL (collapseNLA n t) ≤ 2 - min n 2 ∧ noTriple (collapseNLA n t) := by
  intro t
  induction t with
  | nil =>
    intro n
    exact ⟨by simp [collapseNLA, leadNL], noTriple_nil⟩
  | cons c r ih =>
    intro n
    by_cases hc : c = '\n'
    · subst hc
      by_cases hn : 2 ≤ n
      · rw [collapseNLA_cons_nl_ge r hn]
        exact ih n
      · rw [collapseNLA_cons_nl_lt r hn]
        have h1 := ih (n + 1)
        constructor
        · rw [leadNL_cons_nl]
          have := h1.1
          omega
        · apply noTriple_cons h1.2
          rintro ⟨_, hlead⟩
          have := h1.1
          omega
    · rw [collapseNLA_cons_other r hc]
      have h0 := ih 0
      constructor
      · rw [leadNL_cons_other _ hc]; omega
      · exact noTriple_cons h0.2 (fun hx => hc hx.1)

theorem collapseNLA_id_of_noTriple : ∀ (t : Text) (n : Nat),
    noTriple t → leadNL t ≤ 2 - n → n ≤ 2 → collapseNLA n t = t := by
  intro t
  induction t with
  | nil => intro n _ _ _; rfl
  | cons c r ih =>
    intro n hnt hlead hn
    by_cases hc : c = '\n'
    · subst hc
      rw [leadNL_cons_nl] at hlead
      have hn1 : ¬ 2 ≤ n := by omega
      rw [collapseNLA_cons_nl_lt r hn1]
      rw [ih (n + 1) (noTriple_tail hnt) (by omega) (by omega)]
    · rw [collapseNLA_cons_other r hc]
      rw [ih 0 (noTriple_tail hnt) (by simpa using noTriple_lead (noTriple_tail hnt))
        (by omega)]

theorem noTriple_stripLead {t : Text} (h : noTriple t) : noTriple (stripLead t) := by
  induction t with
  | nil => exact h
  | cons c r ih =>
    by_cases hc : c = '\n'
    · subst hc
      rw [show stripLead ('\n' :: r) = stripLead r from
        List.dropWhile_cons_of_pos (by simp)]
      exact ih (noTriple_tail h)
    · rwa [show stripLead (c :: r) = c :: r from
        List.dropWhile_cons_of_neg (by simpa using hc)]

theorem stripLead_head {t : Text} {c : Char}
    (h : (stripLead t).head? = some c) : c ≠ '\n' := by
  have := dropWhile_head_false h
  simpa using this

theorem stripLead_noop {t : Text}
    (h : ∀ c, t.head? = some c → c ≠ '\n') : stripLead t = t := by
  apply dropWhile_eq_self_of_head
  intro c hc
  simp [h c hc]

theorem leadNL_of_head {t : Text} (h : ∀ c, t.head? = some c → c ≠ '\n') :
    leadNL t = 0 := by
  cases t with
  | nil => rfl
  | cons c r => exact leadNL_cons_other r (h c rfl)

/-! ## Lines survive the newline collapse in normalized form -/

theorem splitLines_joinLines {ls : List Text} (h : ∀ l ∈ ls, '\n' ∉ l)
    (hne : ls ≠ []) : splitLines (joinLines ls) = ls := by
  induction ls with
  | nil => exact absurd rfl hne
  | cons l ls ih =>
    cases ls with
    | nil =>
      show splitLines (joinLines [l]) = [l]
      exact splitLines_of_noNL (h l (List.mem_cons_self l []))
    | cons l2 ls2 =>
      rw [joinLines_cons (by simp)]
      rw [splitLines_append_noNL _ (h l (List.mem_cons_self _ _))]
      rw [splitLines_cons_nl]
      rw [ih (fun x hx => h x (List.mem_cons_of_mem l hx)) (by simp)]
      simp

theorem linesG_collapse : ∀ (ls : List Text) (n : Nat),
    (∀ l ∈ ls, '\n' ∉ l ∧ normLine l = l) →
    ∀ l2 ∈ splitLines (collapseNLA n (joinLines ls)), normLine l2 = l2 := by
  intro ls
  induction ls with
  | nil =>
    intro n _ l2 hl2
    simp only [joinLines] at hl2
    show normLine l2 = l2
    have : collapseNLA n ([] : Text) = [] := rfl
    rw [this] at hl2
    simp [splitLines] at hl2
    subst hl2
    rfl
  | cons l ls ih =>
    intro n hG l2 hl2
    cases ls with
    | nil =>
      simp only [joinLines] at hl2
      rw [collapseNLA_noNL_id (hG l (List.mem_cons_self _ _)).1 n] at hl2
      rw [splitLines_of_noNL (hG l (List.mem_cons_self _ _)).1] at hl2
      simp at hl2
      subst hl2
      exact (hG _ (List.mem_cons_self _ _)).2
    | cons lh ls2 =>
      rw [joinLines_cons (by simp)] at hl2
      have hGtail : ∀ x ∈ lh :: ls2, '\n' ∉ x ∧ normLine x = x :=
        fun x hx => hG x (List.mem_cons_of_mem l hx)
      by_cases hl0 : l = []
      · subst hl0
        simp only [List.nil_append] at hl2
        by_cases hn : 2 ≤ n
        · rw [collapseNLA_cons_nl_ge _ hn] at hl2
          exact ih n hGtail l2 hl2
        · rw [collapseNLA_cons_nl_lt _ hn] at hl2
          rw [splitLines_cons_nl] at hl2
          rcases List.mem_cons.mp hl2 with h | h
          · subst h; rfl
          · exact ih (n + 1) hGtail l2 h
      · have hlnl : '\n' ∉ l := (hG l (List.mem_cons_self _ _)).1
        rw [collapseNLA_append_noNL_pos _ hlnl hl0 n] at hl2
        rw [collapseNLA_cons_nl_lt _ (by omega)] at hl2
        rw [splitLines_append_noNL _ hlnl] at hl2
        rw [splitLines_cons_nl] at hl2
        simp only [List.headD, List.tail, List.append_nil] at hl2
        rcases List.mem_cons.mp hl2 with h | h
        · subst h
          exact (hG _ (List.mem_cons_self _ _)).2
        · exact ih 1 hGtail l2 h

theorem linesG_stripLead {x : Text}
    (h : ∀ l ∈ splitLines x, normLine l = l) :
    ∀ l ∈ splitLines (stripLead x), normLine l = l := by
  induction x with
  | nil => exact h
  | cons c r ih =>
    by_cases hc : c = '\n'
    · subst hc
      rw [show stripLead ('\n' :: r) = stripLead r from
        List.dropWhile_cons_of_pos (by simp)]
      apply ih
      intro l hl
      exact h l (by rw [splitLines_cons_nl]; exact List.mem_cons_of_mem _ hl)
    · rwa [show stripLead (c :: r) = c :: r from
        List.dropWhile_cons_of_neg (by simpa using hc)]

theorem normalizeLines_id {y : Text}
    (h : ∀ l ∈ splitLines y, normLine l = l) : normalizeLines y = y := by
  unfold normalizeLines
  rw [List.map_congr_left h, List.map_id' (splitLines y)]
  exact joinLines_splitLines y

theorem lines_of_normalizeLines {t : Text} :
    ∀ l ∈ splitLines (normalizeLines t), '\n' ∉ l ∧ normLine l = l := by
  intro l hl
  unfold normalizeLines at hl
  have hprops : ∀ x ∈ (splitLines t).map normLine, '\n' ∉ x := by
    intro x hx
    rcases List.mem_map.mp hx with ⟨x0, hx0, he⟩
    exact he ▸ normLine_noNL (splitLines_noNL hx0)
  rw [splitLines_joinLines hprops (by
    intro hnil
    exact splitLines_ne_nil t (List.map_eq_nil_iff.mp hnil))] at hl
  rcases List.mem_map.mp hl with ⟨l0, _, he⟩
  subst he
  exact ⟨normLine_noNL (splitLines_noNL (by assumption)), normLine_idem l0⟩

/-- The core of idempotence: the tail of the pipeline is a no-op on its own
output. -/
theorem cleanTail_fixed (t : Text) :
    stripLead (collapseNL (normalizeLines
      (stripLead (collapseNL (normalizeLines t))))) =
    stripLead (collapseNL (normalizeLines t)) := by
  set y := stripLead (collapseNL (normalizeLines t)) with hy
  have hGy : ∀ l ∈ splitLines y, normLine l = l := by
    apply linesG_stripLead
    intro l hl
    exact linesG_collapse ((splitLines t).map normLine) 0 (by
      intro x hx
      rcases List.mem_map.mp hx with ⟨x0, hx0, he⟩
      subst he
      exact ⟨normLine_noNL (splitLines_noNL hx0), normLine_idem x0⟩) l hl
  have e3 : normalizeLines y = y := normalizeLines_id hGy
  have hNTy : noTriple y := by
    rw [hy]
    exact noTriple_stripLead (collapseNLA_bounded (normalizeLines t) 0).2
  have hheady : ∀ c, y.head? = some c → c ≠ '\n' := by
    intro c hc
    exact stripLead_head hc
  have e4 : collapseNL y = y := by
    unfold collapseNL
    exact collapseNLA_id_of_noTriple y 0 hNTy (by
      rw [leadNL_of_head hheady]; omega) (by omega)
  have e5 : stripLead y = y := stripLead_noop hheady
  rw [e3, e4, e5]

/-! ## Plain lines: characters untouched by every pipeline step -/

/-- A character none of the cleaning steps rewrites: not whitespace and not
one of `|`, `+`, `(`. -/
def plainChar (c : Char) : Bool :=
  !(isPyWS c) && !(c = '|') && !(c = '+') && !(c = '(')

def plainLine (l : Text) : Prop := ∀ c ∈ l, plainChar c = true

instance (l : Text) : Decidable (plainLine l) := List.decidableBAll _ l

theorem plain_not_ws {c : Char} (h : plainChar c = true) : isPyWS c = false := by
  simp [plainChar] at h
  exact h.1.1.1

theorem plain_not_nl {c : Char} (h : plainChar c = true) : c ≠ '\n' := by
  intro he
  subst he
  simp [plainChar, isPyWS] at h

theorem plainLine_noNL {l : Text} (h : plainLine l) : '\n' ∉ l :=
  fun hm => plain_not_nl (h '\n' hm) rfl

theorem collapseWSA_id_noHT {l : Text} (h : ∀ c ∈ l, isHT c = false) :
    collapseWSA false l = l := by
  induction l with
  | nil => rfl
  | cons a t ih =>
    unfold collapseWSA
    rw [if_neg (by simp [h a (List.mem_cons_self a t)])]
    rw [ih (fun c hc => h c (List.mem_cons_of_mem a hc))]

theorem ht_imp_pyws {c : Char} (h : isHT c = true) : isPyWS c = true := by
  simp [isHT] at h
  rcases h with h | h <;> simp [isPyWS, h]

theorem normLine_id_noWS {l : Text} (h : ∀ c ∈ l, isPyWS c = false) :
    normLine l = l := by
  unfold normLine
  have hHT : ∀ c ∈ l, isHT c = false := by
    intro c hc
    by_cases hht : isHT c = true
    · exact absurd (h c hc) (by rw [ht_imp_pyws hht]; simp)
    · simpa using hht
  rw [show collapseWS l = l from collapseWSA_id_noHT hHT]
  apply stripLine_noop
  · intro c hc
    exact h c (List.mem_of_mem_head? (by rw [hc]; rfl))
  · intro c hc
    exact h c (List.mem_of_mem_getLast? (by rw [hc]; rfl))

theorem plain_normLine {l : Text} (h : plainLine l) : normLine l = l :=
  normLine_id_noWS (fun c hc => plain_not_ws (h c hc))

/-! ## takeWhile / drop over exact decompositions -/

theorem takeWhile_all {p : Char → Bool} {l : Text} (h : ∀ c ∈ l, p c = true) :
    l.takeWhile p = l := by
  induction l with
  | nil => rfl
  | cons a t ih =>
    rw [List.takeWhile_cons_of_pos (h a (List.mem_cons_self a t))]
    rw [ih (fun c hc => h c (List.mem_cons_of_mem a hc))]

theorem takeWhile_app_exact {p : Char → Bool} {x y : Text}
    (hx : ∀ c ∈ x, p c = true) (hy : ∀ c, y.head? = some c → p c = false) :
    (x ++ y).takeWhile p = x := by
  induction x with
  | nil =>
    simp only [List.nil_append]
    cases y with
    | nil => rfl
    | cons a t => exact List.takeWhile_cons_of_neg (by simp [hy a rfl])
  | cons a t ih =>
    rw [List.cons_append,
      List.takeWhile_cons_of_pos (hx a (List.mem_cons_self a t))]
    rw [ih (fun c hc => hx c (List.mem_cons_of_mem a hc))]

/-! ## Replicated blank lines through splitting and joining -/

theorem splitLines_rep_append : ∀ (k : Nat) {b : Text}, '\n' ∉ b →
    splitLines (List.replicate k '\n' ++ b) = List.replicate k [] ++ [b] := by
  intro k
  induction k with
  | zero =>
    intro b hb
    simpa using splitLines_of_noNL hb
  | succ k ih =>
    intro b hb
    rw [List.replicate_succ, List.cons_append, splitLines_cons_nl, ih hb]
    rfl

theorem joinLines_rep_append (b : Text) : ∀ (m : Nat),
    joinLines (List.replicate m [] ++ [b]) = List.replicate m '\n' ++ b := by
  intro m
  induction m with
  | zero => rfl
  | succ m ih =>
    rw [List.replicate_succ, List.cons_append,
      joinLines_cons (by simp), ih, List.replicate_succ]
    rfl

theorem joinLines_rep_only : ∀ (m : Nat) (l : Text),
    joinLines (l :: List.replicate m []) = l ++ List.replicate m '\n' := by
  intro m
  induction m with
  | zero => intro l; simp [joinLines]
  | succ m ih =>
    intro l
    rw [List.replicate_succ, joinLines_cons (by simp)]
    have : joinLines ([] :: List.replicate m ([] : Text)) =
        [] ++ List.replicate m '\n' := ih []
    simp only [List.nil_append] at this
    rw [show ([] : Text) :: List.replicate m [] = ([] : Text) :: List.replicate m [] from rfl]
    rw [this, List.replicate_succ]

/-- `normalizeLines` is the identity on a normalized line, a newline run, and
a second normalized line. -/
theorem normalizeLines_plain_run {a b : Text} (ha1 : '\n' ∉ a) (ha2 : normLine a = a)
    (hb1 : '\n' ∉ b) (hb2 : normLine b = b) (k : Nat) (hk : 1 ≤ k) :
    normalizeLines (a ++ List.replicate k '\n' ++ b) =
      a ++ List.replicate k '\n' ++ b := by
  unfold normalizeLines
  rw [List.append_assoc]
  rw [splitLines_append_noNL _ ha1]
  rw [splitLines_rep_append k hb1]
  cases k with
  | zero => omega
  | succ k =>
    rw [List.replicate_succ]
    simp only [List.cons_append, List.headD, List.tail, List.append_nil]
    rw [List.map_cons, ha2]
    have hmap : List.map normLine (List.replicate k ([] : Text) ++ [b]) =
        List.replicate k [] ++ [b] := by
      rw [List.map_append]
      congr 1
      · rw [List.map_replicate]; rfl
      · rw [List.map_cons, hb2]; rfl
    rw [hmap]
    rw [joinLines_cons (by simp), joinLines_rep_append b k]
    simp [List.replicate_succ]

/-! ## End-to-end behavior on plain-line shapes -/

theorem digit_facts {d : Char} (h : Char.isDigit d = true) :
    d ≠ '+' ∧ d ≠ '|' ∧ d ≠ '(' ∧ isPyWS d = false ∧ d ≠ '\n' := by
  refine ⟨?_, ?_, ?_, ?_, ?_⟩
  · intro he; subst he; simp [Char.isDigit] at h
  · intro he; subst he; simp [Char.isDigit] at h
  · intro he; subst he; simp [Char.isDigit] at h
  · by_contra hws
    simp only [Bool.not_eq_false] at hws
    simp only [isPyWS, Bool.or_eq_true, decide_eq_true_eq] at hws
    rcases hws with ((((h1 | h1) | h1) | h1) | h1) | h1 <;>
      (subst h1; simp [Char.isDigit] at h)
  · intro he; subst he; simp [Char.isDigit] at h

theorem not_mem_plain_run {a b : Text} (ha : plainLine a) (hb : plainLine b)
    {k : Nat} {d : Char} (hd : plainChar d = false) (hdn : d ≠ '\n') :
    d ∉ a ++ List.replicate k '\n' ++ b := by
  intro hm
  rcases List.mem_append.mp hm with hm | hm
  · rcases List.mem_append.mp hm with hm | hm
    · exact absurd (ha d hm) (by simp [hd])
    · exact hdn (List.mem_replicate.mp hm).2
  · exact absurd (hb d hm) (by simp [hd])

theorem head_ne_nl_of_plain {b : Text} (hb : plainLine b) :
    ∀ c0, b.head? = some c0 → c0 ≠ '\n' :=
  fun c0 hc0 => plain_not_nl (hb c0 (List.mem_of_mem_head? (by rw [hc0]; rfl)))

/-- The newline-collapse step on a decomposed run: a run of `k` newlines
between a newline-free prefix and a block not starting with a newline is
replaced by `min k 2` newlines. -/
theorem collapseNL_run_decomp {a b : Text} (ha : '\n' ∉ a)
    (hb : ∀ c0, b.head? = some c0 → c0 ≠ '\n') (k : Nat) :
    collapseNL (a ++ List.replicate k '\n' ++ b) =
      a ++ List.replicate (min k 2) '\n' ++ collapseNL b := by
  unfold collapseNL
  rw [List.append_assoc, collapseNLA_append_noNL _ ha, collapseNLA_run k 0 b hb]
  rw [List.append_assoc]

/-- End-to-end: an interior blank run between two plain non-empty lines
collapses to exactly one blank line. -/
theorem clean_plain_run {a b : Text} (ha : plainLine a) (hb : plainLine b)
    (hane : a ≠ []) {k : Nat} (hk : 3 ≤ k) :
    cleanText (a ++ List.replicate k '\n' ++ b) = a ++ '\n' :: '\n' :: b := by
  have hplus : '+' ∉ a ++ List.replicate k '\n' ++ b :=
    not_mem_plain_run ha hb (by decide) (by decide)
  have hbar : '|' ∉ a ++ List.replicate k '\n' ++ b :=
    not_mem_plain_run ha hb (by decide) (by decide)
  have hpar : '(' ∉ a ++ List.replicate k '\n' ++ b :=
    not_mem_plain_run ha hb (by decide) (by decide)
  rw [cleanText_eq_tail hplus hbar hpar]
  rw [normalizeLines_plain_run (plainLine_noNL ha) (plain_normLine ha)
    (plainLine_noNL hb) (plain_normLine hb) k (by omega)]
  rw [collapseNL_run_decomp (plainLine_noNL ha) (head_ne_nl_of_plain hb) k]
  rw [show min k 2 = 2 from by omega]
  rw [show collapseNL b = b from collapseNLA_noNL_id (plainLine_noNL hb) 0]
  rw [List.append_assoc, show List.replicate 2 '\n' ++ b = '\n' :: '\n' :: b from rfl]
  apply stripLead_noop
  intro c hc
  cases a with
  | nil => exact absurd rfl hane
  | cons a0 r =>
    simp only [List.cons_append, List.head?_cons, Option.some.injEq] at hc
    subst hc
    exact plain_not_nl (ha a0 (List.mem_cons_self a0 r))

/-! ## The recital substitution on a decomposed match -/

theorem fixRecF_nil (fuel : Nat) (b : Bool) : fixRecF fuel b [] = [] := by
  cases fuel <;> rfl

theorem parseRec_exact {ds ws tail : Text} (hds : ds ≠ [])
    (hdig : ∀ c ∈ ds, Char.isDigit c = true)
    (hws : ∀ c ∈ ws, isPyWS c = true)
    (htail : ∀ c, tail.head? = some c → isPyWS c = false) :
    parseRec (ds ++ ')' :: (ws ++ tail)) =
      some (ds, tail, ws.getLast? == some '\n') := by
  unfold parseRec
  have h1 : (ds ++ ')' :: (ws ++ tail)).takeWhile Char.isDigit = ds := by
    apply takeWhile_app_exact hdig
    intro c hc
    simp only [List.head?_cons, Option.some.injEq] at hc
    subst hc
    decide
  rw [h1]
  rw [if_neg (by simpa using hds)]
  have h2 : (ds ++ ')' :: (ws ++ tail)).drop ds.length = ')' :: (ws ++ tail) :=
    List.drop_left ds _
  rw [h2]
  dsimp only
  rw [if_pos rfl]
  have h3 : (ws ++ tail).takeWhile isPyWS = ws := takeWhile_app_exact hws htail
  have h4 : (ws ++ tail).drop ws.length = tail := List.drop_left ws tail
  show some (ds, (ws ++ tail).drop ((ws ++ tail).takeWhile isPyWS).length,
      ((ws ++ tail).takeWhile isPyWS).getLast? == some '\n') =
    some (ds, tail, ws.getLast? == some '\n')
  rw [h3, h4]

theorem fixRecF_cons_match {f : Nat} {rest ds r2 : Text} {nl : Bool}
    (h : parseRec rest = some (ds, r2, nl)) :
    fixRecF (f + 1) true ('(' :: rest) =
      '(' :: (ds ++ ')' :: ' ' :: fixRecF f nl r2) := by
  show (if true = true ∧ '(' = '(' then
      match parseRec rest with
      | some (ds, rest2, nl) => '(' :: (ds ++ ')' :: ' ' :: fixRecF f nl rest2)
      | none => '(' :: fixRecF f ('(' == '\n') rest
    else '(' :: fixRecF f ('(' == '\n') rest) = _
  rw [if_pos ⟨rfl, rfl⟩, h]

/-- The recital substitution joins everything after `(digits)` up to the next
non-whitespace character onto the same line. -/
theorem fixRec_recital_run {ds c : Text} (hds : ds ≠ [])
    (hdig : ∀ d ∈ ds, Char.isDigit d = true) (hc : plainLine c) (m : Nat) :
    fixRec ('(' :: ds ++ ')' :: (List.replicate m '\n' ++ c)) =
      '(' :: ds ++ ')' :: ' ' :: c := by
  unfold fixRec
  have hpr : parseRec (ds ++ ')' :: (List.replicate m '\n' ++ c)) =
      some (ds, c, (List.replicate m '\n').getLast? == some '\n') := by
    apply parseRec_exact hds hdig
    · intro x hx
      rw [(List.mem_replicate.mp hx).2]
      decide
    · intro x hx
      exact plain_not_ws (hc x (List.mem_of_mem_head? (by rw [hx]; rfl)))
  have hlen : ('(' :: ds ++ ')' :: (List.replicate m '\n' ++ c)).length =
      (ds ++ ')' :: (List.replicate m '\n' ++ c)).length + 1 := by
    simp
  rw [hlen]
  rw [show ('(' :: ds ++ ')' :: (List.replicate m '\n' ++ c)) =
    '(' :: (ds ++ ')' :: (List.replicate m '\n' ++ c)) from rfl]
  rw [fixRecF_cons_match hpr]
  have hfc : fixRecF (ds ++ ')' :: (List.replicate m '\n' ++ c)).length
      ((List.replicate m '\n').getLast? == some '\n') c = c := by
    apply fixRecF_noop
    · simp
      omega
    · intro hm
      exact absurd (hc '(' hm) (by decide)
  rw [hfc]
  rfl

/-- The first heading-like line `"(digits)"` passes through the per-line
normalization unchanged. -/
theorem normLine_recital_head {ds : Text}
    (hdig : ∀ d ∈ ds, Char.isDigit d = true) :
    normLine ('(' :: ds ++ [')']) = '(' :: ds ++ [')'] := by
  apply normLine_id_noWS
  intro x hx
  rcases List.mem_cons.mp hx with h | h
  · subst h; decide
  · rcases List.mem_append.mp h with h | h
    · exact (digit_facts (hdig x h)).2.2.2.1
    · simp at h
      subst h; decide

theorem noNL_recital_head {ds : Text}
    (hdig : ∀ d ∈ ds, Char.isDigit d = true) :
    '\n' ∉ '(' :: ds ++ [')'] := by
  intro hm
  rcases List.mem_cons.mp hm with h | h
  · exact absurd h.symm (by decide)
  · rcases List.mem_append.mp h with h | h
    · exact absurd (digit_facts (hdig _ h)).2.2.2.2 (by simp)
    · simp at h

theorem recital_decomp (ds X : Text) :
    '(' :: ds ++ ')' :: X = ('(' :: ds ++ [')']) ++ X := by
  simp

theorem mem_recital_head_cases {ds : Text} {x : Char}
    (h : x ∈ '(' :: ds ++ [')']) : x = '(' ∨ x = ')' ∨ x ∈ ds := by
  rcases List.mem_cons.mp h with h | h
  · exact Or.inl h
  · rcases List.mem_append.mp h with h | h
    · exact Or.inr (Or.inr h)
    · simp at h
      exact Or.inr (Or.inl h)

theorem not_mem_recital_run {ds c : Text}
    (hdig : ∀ d ∈ ds, Char.isDigit d = true) (hc : plainLine c) {m : Nat}
    {x : Char} (hx1 : x ≠ '(') (hx2 : x ≠ ')') (hx3 : x ≠ '\n')
    (hx4 : Char.isDigit x = false) (hx5 : plainChar x = false) :
    x ∉ ('(' :: ds ++ [')']) ++ (List.replicate m '\n' ++ c) := by
  intro hm
  rcases List.mem_append.mp hm with hm | hm
  · rcases mem_recital_head_cases hm with h | h | h
    · exact hx1 h
    · exact hx2 h
    · rw [hdig x h] at hx4
      simp at hx4
  · rcases List.mem_append.mp hm with hm | hm
    · exact hx3 (List.mem_replicate.mp hm).2
    · rw [hc x hm] at hx5
      simp at hx5

theorem noNL_recital_out {ds c : Text}
    (hdig : ∀ d ∈ ds, Char.isDigit d = true) (hc : plainLine c) :
    '\n' ∉ '(' :: ds ++ ')' :: ' ' :: c := by
  intro hm
  rcases List.mem_cons.mp hm with h | h
  · exact absurd h (by decide)
  · rcases List.mem_append.mp h with h | h
    · exact absurd (digit_facts (hdig _ h)).2.2.2.2 (by simp)
    · rcases List.mem_cons.mp h with h | h
      · exact absurd h (by decide)
      · rcases List.mem_cons.mp h with h | h
        · exact absurd h (by decide)
        · exact plain_not_nl (hc _ h) rfl

/-- `cleanText` on `"(digits)"` followed by a newline run and a plain block:
everything is joined onto one line with a single space. -/
theorem clean_recital_run {ds c : Text} (hds : ds ≠ [])
    (hdig : ∀ d ∈ ds, Char.isDigit d = true) (hc : plainLine c)
    {m : Nat} (hm : 1 ≤ m) :
    cleanText ('(' :: ds ++ ')' :: (List.replicate m '\n' ++ c)) =
      '(' :: ds ++ ')' :: ' ' :: c := by
  rw [recital_decomp]
  unfold cleanText
  rw [removeBox_noop (not_mem_recital_run hdig hc (by decide) (by decide) (by decide)
    (by decide) (by decide))]
  rw [noBar_noop (not_mem_recital_run hdig hc (by decide) (by decide) (by decide)
    (by decide) (by decide))]
  rw [← List.append_assoc]
  rw [normalizeLines_plain_run (noNL_recital_head hdig) (normLine_recital_head hdig)
    (plainLine_noNL hc) (plain_normLine hc) m hm]
  rw [List.append_assoc, ← recital_decomp]
  rw [fixRec_recital_run hds hdig hc m]
  rw [show collapseNL ('(' :: ds ++ ')' :: ' ' :: c) = '(' :: ds ++ ')' :: ' ' :: c from
    collapseNLA_noNL_id (noNL_recital_out hdig hc) 0]
  apply stripLead_noop
  intro x hx
  simp only [List.cons_append, List.head?_cons, Option.some.injEq] at hx
  subst hx
  decide

/-- `cleanText` on `"(digits)"` followed only by newlines: the output ends
with the substituted trailing space. -/
theorem clean_recital_end {ds : Text} (hds : ds ≠ [])
    (hdig : ∀ d ∈ ds, Char.isDigit d = true) (m : Nat) :
    cleanText ('(' :: ds ++ ')' :: List.replicate m '\n') =
      '(' :: ds ++ [')', ' '] := by
  cases m with
  | succ m0 =>
    have h := @clean_recital_run ds [] hds hdig (by intro x hx; simp at hx)
      (m0 + 1) (by omega)
    rw [List.append_nil] at h
    exact h
  | zero =>
    have hline : cleanText ('(' :: ds ++ ')' :: List.replicate 0 '\n') =
        cleanText ('(' :: ds ++ [')']) := by rfl
    rw [hline]
    unfold cleanText
    have hplus : '+' ∉ '(' :: ds ++ [')'] := by
      intro hm
      rcases mem_recital_head_cases hm with h | h | h
      · exact absurd h (by decide)
      · exact absurd h (by decide)
      · exact (digit_facts (hdig _ h)).1 rfl
    have hbar : '|' ∉ '(' :: ds ++ [')'] := by
      intro hm
      rcases mem_recital_head_cases hm with h | h | h
      · exact absurd h (by decide)
      · exact absurd h (by decide)
      · exact (digit_facts (hdig _ h)).2.1 rfl
    rw [removeBox_noop hplus, noBar_noop hbar]
    have hnorm : normalizeLines ('(' :: ds ++ [')']) = '(' :: ds ++ [')'] := by
      unfold normalizeLines
      rw [splitLines_of_noNL (noNL_recital_head hdig)]
      rw [List.map_cons]
      rw [normLine_recital_head hdig]
      rfl
    rw [hnorm]
    have hfix : fixRec ('(' :: ds ++ [')']) = '(' :: ds ++ [')', ' '] := by
      have h := @fixRec_recital_run ds [] hds hdig (by intro x hx; simp at hx) 0
      simpa using h
    rw [hfix]
    have hnl : '\n' ∉ '(' :: ds ++ [')', ' '] := by
      intro hm
      rcases List.mem_cons.mp hm with h | h
      · exact absurd h (by decide)
      · rcases List.mem_append.mp h with h | h
        · exact absurd (digit_facts (hdig _ h)).2.2.2.2 (by simp)
        · simp at h
    rw [show collapseNL ('(' :: ds ++ [')', ' ']) = '(' :: ds ++ [')', ' '] from
      collapseNLA_noNL_id hnl 0]
    apply stripLead_noop
    intro x hx
    simp only [List.cons_append, List.head?_cons, Option.some.injEq] at hx
    subst hx
    decide

/-! ## First-wins deduplication and sorting of articles -/

theorem dedupArts_nodup : ∀ (l : List (Nat × Text)) (seen : List Nat),
    ((dedupArts seen l).map Prod.fst).Nodup ∧
    ∀ n ∈ (dedupArts seen l).map Prod.fst, n ∉ seen := by
  intro l
  induction l with
  | nil => intro seen; exact ⟨List.nodup_nil, by simp [dedupArts]⟩
  | cons p rest ih =>
    intro seen
    by_cases hp : p.1 ∈ seen
    · rw [show dedupArts seen (p :: rest) = dedupArts seen rest from by
        simp [dedupArts, hp]]
      exact ih seen
    · rw [show dedupArts seen (p :: rest) = p :: dedupArts (p.1 :: seen) rest from by
        simp [dedupArts, hp]]
      rw [List.map_cons]
      have hIH := ih (p.1 :: seen)
      constructor
      · rw [List.nodup_cons]
        refine ⟨?_, hIH.1⟩
        intro hmem
        exact hIH.2 p.1 hmem (List.mem_cons_self _ _)
      · intro n hn
        rcases List.mem_cons.mp hn with h | h
        · exact h ▸ hp
        · exact fun hs => hIH.2 n h (List.mem_cons_of_mem _ hs)

theorem dedupArts_mem : ∀ (l : List (Nat × Text)) (seen : List Nat) (n : Nat) (ti : Text),
    (n ∉ seen → ((n, ti) ∈ dedupArts seen l ↔
      l.find? (fun e => e.1 == n) = some (n, ti))) ∧
    (n ∈ seen → (n, ti) ∉ dedupArts seen l) := by
  intro l
  induction l with
  | nil =>
    intro seen n ti
    constructor
    · intro _
      simp [dedupArts, List.find?]
    · intro _
      simp [dedupArts]
  | cons p rest ih =>
    intro seen n ti
    by_cases hp : p.1 ∈ seen
    · rw [show dedupArts seen (p :: rest) = dedupArts seen rest from by
        simp [dedupArts, hp]]
      constructor
      · intro hn
        have hne : p.1 ≠ n := fun he => hn (he ▸ hp)
        rw [List.find?_cons_of_neg _ (by simpa using hne)]
        exact (ih seen n ti).1 hn
      · exact (ih seen n ti).2
    · rw [show dedupArts seen (p :: rest) = p :: dedupArts (p.1 :: seen) rest from by
        simp [dedupArts, hp]]
      constructor
      · intro hn
        by_cases hpn : p.1 = n
        · rw [List.find?_cons_of_pos _ (by simpa using hpn)]
          constructor
          · intro hmem
            rcases List.mem_cons.mp hmem with h | h
            · rw [← h]
            · exact absurd h ((ih (p.1 :: seen) n ti).2
                (by rw [← hpn]; exact List.mem_cons_self _ _))
          · intro he
            have h2 : p = (n, ti) := Option.some.inj he
            rw [h2]
            exact List.mem_cons_self _ _
        · rw [List.find?_cons_of_neg _ (by simpa using hpn)]
          rw [← (ih (p.1 :: seen) n ti).1 (by
            intro hmem2
            rcases List.mem_cons.mp hmem2 with h | h
            · exact hpn h.symm
            · exact hn h)]
          constructor
          · intro hmem
            rcases List.mem_cons.mp hmem with h | h
            · exact absurd (congrArg Prod.fst h).symm hpn
            · exact h
          · exact fun h => List.mem_cons_of_mem p h
      · intro hn hmem
        rcases List.mem_cons.mp hmem with h | h
        · exact hp ((congrArg Prod.fst h).symm ▸ hn)
        · exact (ih (p.1 :: seen) n ti).2 (List.mem_cons_of_mem _ hn) h

/-! ## The lazy title group captures exactly one physical line -/

theorem lazyDotPlus_eq {c : Char} (r : Text) (hc : c ≠ '\n') :
    lazyDotPlus (c :: r) =
      some ((c :: r).takeWhile (fun x => x ≠ '\n'),
            (c :: r).dropWhile (fun x => x ≠ '\n')) := by
  induction r generalizing c with
  | nil =>
    unfold lazyDotPlus
    rw [if_neg hc, if_pos (by simp [lookBlank])]
    rw [List.takeWhile_cons_of_pos (by simpa using hc)]
    rw [List.dropWhile_cons_of_pos (by simpa using hc)]
    rfl
  | cons d r2 ih =>
    by_cases hd : d = '\n'
    · subst hd
      unfold lazyDotPlus
      rw [if_neg hc, if_pos (by simp [lookBlank])]
      rw [List.takeWhile_cons_of_pos (by simpa using hc)]
      rw [List.dropWhile_cons_of_pos (by simpa using hc)]
      rw [List.takeWhile_cons_of_neg (by simp)]
      rw [List.dropWhile_cons_of_neg (by simp)]
    · have hlz := ih hd
      unfold lazyDotPlus
      rw [if_neg hc, if_neg (by simp [lookBlank, hd])]
      rw [show (match lazyDotPlus (d :: r2) with
          | some (ti, r) => some (c :: ti, r)
          | none => none) =
        some (c :: (d :: r2).takeWhile (fun x => x ≠ '\n'),
              (d :: r2).dropWhile (fun x => x ≠ '\n')) from by rw [hlz]]
      conv_rhs => rw [List.takeWhile_cons_of_pos (by simpa using hc),
        List.dropWhile_cons_of_pos (by simpa using hc)]

theorem lazyDotPlus_nl (r : Text) : lazyDotPlus ('\n' :: r) = none := by
  unfold lazyDotPlus
  rw [if_pos rfl]

theorem chapMatch_eq_amd (s : Text) : chapMatch s = amdChapMatch s := by
  unfold chapMatch amdChapMatch
  cases hh : chapHead s with
  | none => rfl
  | some p =>
    obtain ⟨rs, s2⟩ := p
    cases s2 with
    | nil => rfl
    | cons c r =>
      by_cases hc : c = '\n'
      · subst hc
        dsimp only
        rw [lazyDotPlus_nl]
        rw [show ('\n' :: r).takeWhile (fun x => x ≠ '\n') = [] from
          List.takeWhile_cons_of_neg (by simp)]
        rfl
      · dsimp only
        rw [lazyDotPlus_eq r hc]
        rw [show ((c :: r).takeWhile (fun x => x ≠ '\n')).isEmpty = false from by
          rw [List.takeWhile_cons_of_pos (by simpa using hc)]; rfl]
        rfl

theorem chapScan_eq_amd : ∀ (fuel : Nat) (b : Bool) (s : Text),
    chapScanF fuel b s = amdChapScan fuel b s := by
  intro fuel
  induction fuel with
  | zero => intro b s; rfl
  | succ f ih =>
    intro b s
    cases s with
    | nil => rfl
    | cons c rest =>
      unfold chapScanF amdChapScan
      cases b with
      | false =>
        rw [if_neg Bool.false_ne_true, if_neg Bool.false_ne_true]
        exact ih _ rest
      | true =>
        rw [if_pos rfl, if_pos rfl]
        rw [chapMatch_eq_amd]
        cases ham : amdChapMatch (c :: rest) with
        | none => exact ih _ rest
        | some p =>
          obtain ⟨e, L⟩ := p
          dsimp only
          rw [ih false (List.drop L (c :: rest))]

/-! ## Inversion and context-stability of the definition-pattern match -/

theorem take_takeWhile_len (p : Char → Bool) (l : Text) :
    l.take ((l.takeWhile p).length) = l.takeWhile p := by
  induction l with
  | nil => rfl
  | cons a t ih =>
    by_cases hp : p a
    · rw [List.takeWhile_cons_of_pos hp, List.length_cons, List.take_succ_cons, ih]
    · rw [List.takeWhile_cons_of_neg (by simpa using hp)]; rfl

theorem takeWhile_drop_split (p : Char → Bool) (l : Text) :
    l = l.takeWhile p ++ l.drop ((l.takeWhile p).length) := by
  conv_lhs => rw [← List.take_append_drop ((l.takeWhile p).length) l]
  rw [take_takeWhile_len]

theorem quote_not_ws {q : Char} (h : isQuote q = true) : isPyWS q = false := by
  simp only [isQuote, Bool.or_eq_true, decide_eq_true_eq] at h
  rcases h with ((h | h) | h) | h <;> (subst h; decide)

/-- Computation of `defMatch` on a fully decomposed match shape. -/
theorem defMatch_exact {ds ws te : Text} {q q2 : Char} (s4 : Text)
    (hds : ds ≠ []) (hdig : ∀ c ∈ ds, Char.isDigit c = true)
    (hws : ∀ c ∈ ws, isPyWS c = true) (hq : isQuote q = true)
    (hte : te ≠ []) (htq : ∀ c ∈ te, isQuote c = false) (hq2 : isQuote q2 = true) :
    defMatch ('(' :: (ds ++ ')' :: (ws ++ q :: (te ++ q2 :: s4)))) =
      some ((natOfDigits ds, stripLine te),
            1 + ds.length + 1 + ws.length + 1 + te.length + 1) := by
  have h1 : (ds ++ ')' :: (ws ++ q :: (te ++ q2 :: s4))).takeWhile Char.isDigit = ds := by
    apply takeWhile_app_exact hdig
    intro c hc
    simp only [List.head?_cons, Option.some.injEq] at hc
    subst hc; decide
  have h2 : (ws ++ q :: (te ++ q2 :: s4)).takeWhile isPyWS = ws := by
    apply takeWhile_app_exact hws
    intro c hc
    simp only [List.head?_cons, Option.some.injEq] at hc
    subst hc
    exact quote_not_ws hq
  have h3 : (te ++ q2 :: s4).takeWhile (fun c => !(isQuote c)) = te := by
    apply takeWhile_app_exact (by intro c hc; simp [htq c hc])
    intro c hc
    simp only [List.head?_cons, Option.some.injEq] at hc
    subst hc
    simp [hq2]
  unfold defMatch
  dsimp only
  rw [if_pos rfl, h1, if_neg (by simpa using hds), List.drop_left ds _]
  dsimp only
  rw [if_pos rfl, h2, List.drop_left ws _]
  dsimp only
  rw [if_pos hq, h3, if_neg (by simpa using hte), List.drop_left te _]
  dsimp only
  rw [if_pos hq2]

/-- Inversion: a successful `defMatch` exhibits the full decomposition of its
input. -/
theorem defMatch_inv {s : Text} {e : Nat × Text} {L : Nat}
    (h : defMatch s = some (e, L)) :
    ∃ ds ws te s4 q q2,
      s = '(' :: (ds ++ ')' :: (ws ++ q :: (te ++ q2 :: s4))) ∧
      ds ≠ [] ∧ (∀ c ∈ ds, Char.isDigit c = true) ∧
      (∀ c ∈ ws, isPyWS c = true) ∧ isQuote q = true ∧
      te ≠ [] ∧ (∀ c ∈ te, isQuote c = false) ∧ isQuote q2 = true ∧
      e = (natOfDigits ds, stripLine te) ∧
      L = 1 + ds.length + 1 + ws.length + 1 + te.length + 1 := by
  unfold defMatch at h
  split at h
  case h_2 => exact absurd h (by simp)
  case h_1 c0 s1 =>
    split at h
    case isFalse => exact absurd h (by simp)
    case isTrue hc0 =>
      try dsimp only at h
      split at h
      · exact absurd h (by simp)
      · rename_i hds
        split at h
        case h_2 heq1 => exact absurd h (by simp)
        case h_1 c1 s2 heq1 =>
          split at h
          case isFalse => exact absurd h (by simp)
          case isTrue hc1 =>
            try dsimp only at h
            split at h
            case h_2 heq2 => exact absurd h (by simp)
            case h_1 q s3 heq2 =>
              split at h
              case isFalse => exact absurd h (by simp)
              case isTrue hq =>
                try dsimp only at h
                split at h
                · exact absurd h (by simp)
                · rename_i hte
                  split at h
                  case h_2 heq3 => exact absurd h (by simp)
                  case h_1 q2 s4 heq3 =>
                    split at h
                    case isFalse => exact absurd h (by simp)
                    case isTrue hq2 =>
                      simp only [Option.some.injEq, Prod.mk.injEq] at h
                      subst hc0 hc1
                      refine ⟨s1.takeWhile Char.isDigit,
                        s2.takeWhile isPyWS,
                        s3.takeWhile (fun c => !(isQuote c)), s4, q, q2,
                        ?_, ?_, ?_, ?_, hq, ?_, ?_, hq2, ?_, ?_⟩
                      · congr 1
                        conv_lhs => rw [takeWhile_drop_split Char.isDigit s1]
                        rw [heq1]
                        congr 1
                        congr 1
                        conv_lhs => rw [takeWhile_drop_split isPyWS s2]
                        rw [heq2]
                        congr 1
                        congr 1
                        conv_lhs => rw [takeWhile_drop_split (fun c => !(isQuote c)) s3]
                        rw [heq3]
                      · simpa using hds
                      · intro c hc; exact List.mem_takeWhile_imp hc
                      · intro c hc; exact List.mem_takeWhile_imp hc
                      · simpa using hte
                      · intro c hc
                        have := List.mem_takeWhile_imp hc
                        simpa using this
                      · exact h.1.symm
                      · exact h.2.symm

theorem defMatch_bounds {s : Text} {e : Nat × Text} {L : Nat}
    (h : defMatch s = some (e, L)) : 1 ≤ L ∧ L ≤ s.length := by
  obtain ⟨ds, ws, te, s4, q, q2, hs, _, _, _, _, _, _, _, _, hL⟩ := defMatch_inv h
  subst hs
  constructor
  · omega
  · simp [hL]
    omega

theorem defMatch_append {x y : Text} {e : Nat × Text} {L : Nat}
    (h : defMatch x = some (e, L)) : defMatch (x ++ y) = some (e, L) := by
  obtain ⟨ds, ws, te, s4, q, q2, hs, hds, hdig, hws, hq, hte, htq, hq2, he, hL⟩ :=
    defMatch_inv h
  subst hs he hL
  have hx : ('(' :: (ds ++ ')' :: (ws ++ q :: (te ++ q2 :: s4)))) ++ y =
      '(' :: (ds ++ ')' :: (ws ++ q :: (te ++ q2 :: (s4 ++ y)))) := by
    simp
  rw [hx]
  exact defMatch_exact (s4 ++ y) hds hdig hws hq hte htq hq2

/-- Every entry emitted by the definition scan arises from a pattern match at
some position inside the scanned window. -/
theorem defScanF_sound : ∀ (fuel : Nat) (s : Text) (e : Nat × Text),
    e ∈ defScanF fuel s →
    ∃ p L, p + L ≤ s.length ∧ defMatch (s.drop p) = some (e, L) := by
  intro fuel
  induction fuel with
  | zero =>
    intro s e he
    simp [defScanF] at he
  | succ f ih =>
    intro s e he
    cases s with
    | nil => simp [defScanF] at he
    | cons c rest =>
      unfold defScanF at he
      cases hm : defMatch (c :: rest) with
      | some r =>
        obtain ⟨e0, L0⟩ := r
        rw [hm] at he
        rcases List.mem_cons.mp he with he | he
        · subst he
          exact ⟨0, L0, by
            have := (defMatch_bounds hm).2
            simpa using this, by simpa using hm⟩
        · obtain ⟨p, L, hpl, hdm⟩ := ih (List.drop L0 (c :: rest)) e he
          refine ⟨L0 + p, L, ?_, ?_⟩
          · rw [List.length_drop] at hpl
            have hb := defMatch_bounds hm
            omega
          · rwa [List.drop_drop] at hdm
      | none =>
        rw [hm] at he
        obtain ⟨p, L, hpl, hdm⟩ := ih rest e he
        refine ⟨p + 1, L, ?_, ?_⟩
        · simp only [List.length_cons]
          omega
        · rwa [show (c :: rest).drop (p + 1) = rest.drop p from rfl]

/-! ## Decimal rendering facts for the range fields -/

theorem digitChar_isDigit {n : Nat} (h : n < 10) :
    (Char.ofNat (48 + n)).isDigit = true := by
  interval_cases n <;> decide

theorem natReprF_digits : ∀ (fuel n : Nat), ∀ c ∈ natReprF fuel n, Char.isDigit c = true := by
  intro fuel
  induction fuel with
  | zero => intro n c hc; simp [natReprF] at hc
  | succ f ih =>
    intro n c hc
    unfold natReprF at hc
    by_cases hn : n < 10
    · rw [if_pos hn] at hc
      simp at hc
      subst hc
      exact digitChar_isDigit hn
    · rw [if_neg hn] at hc
      rcases List.mem_append.mp hc with h | h
      · exact ih _ c h
      · simp at h
        subst h
        exact digitChar_isDigit (Nat.mod_lt _ (by omega))

theorem natReprF_ne_nil (f n : Nat) : natReprF (f + 1) n ≠ [] := by
  unfold natReprF
  by_cases hn : n < 10
  · rw [if_pos hn]; simp
  · rw [if_neg hn]; simp

theorem natRepr_ne_nil (n : Nat) : natRepr n ≠ [] := natReprF_ne_nil n n

theorem rangeText_ne_none (a b : Nat) :
    natRepr a ++ '-' :: natRepr b ≠ strL "none" := by
  intro he
  obtain ⟨d, r, hd⟩ := List.exists_cons_of_ne_nil (natRepr_ne_nil a)
  have hdig : Char.isDigit d = true :=
    natReprF_digits (a + 1) a d (by rw [show natReprF (a + 1) a = natRepr a from rfl, hd]; exact List.mem_cons_self _ _)
  rw [hd] at he
  have : d = 'n' := by
    have := congrArg List.head? he
    simpa [strL] using this
  rw [this] at hdig
  simp [Char.isDigit] at hdig

theorem rangeText_empty_iff (ns : List Nat) :
    rangeText ns = strL "none" ↔ ns = [] := by
  constructor
  · intro h
    cases ns with
    | nil => rfl
    | cons n rest =>
      exact absurd h (rangeText_ne_none _ _)
  · intro h
    subst h
    rfl

/-! ## The recital substitution in an arbitrary document context -/

theorem dropWhile_eq_drop (p : Char → Bool) (l : Text) :
    l.dropWhile p = l.drop ((l.takeWhile p).length) := by
  induction l with
  | nil => rfl
  | cons a t ih =>
    by_cases hp : p a
    · rw [List.dropWhile_cons_of_pos hp, List.takeWhile_cons_of_pos hp,
        List.length_cons, List.drop_succ_cons, ih]
    · rw [List.dropWhile_cons_of_neg (by simpa using hp),
        List.takeWhile_cons_of_neg (by simpa using hp)]
      rfl

theorem takeWhile_len_le (p : Char → Bool) (l : Text) :
    (l.takeWhile p).length ≤ l.length := by
  have h := congrArg List.length (take_takeWhile_len p l)
  rw [List.length_take] at h
  omega

theorem takeWhile_len_lt {p : Char → Bool} {l : Text}
    (h : ¬ ∀ x ∈ l, p x = true) : (l.takeWhile p).length < l.length := by
  rcases Nat.lt_or_ge (l.takeWhile p).length l.length with hlt | hge
  · exact hlt
  · exfalso
    apply h
    have heq : (l.takeWhile p).length = l.length :=
      Nat.le_antisymm (takeWhile_len_le p l) hge
    have : l.takeWhile p = l := by
      have h2 := take_takeWhile_len p l
      rw [heq, List.take_length] at h2
      exact h2.symm
    intro x hx
    exact List.mem_takeWhile_imp (this ▸ hx)

theorem parseRec_none {s : Text}
    (h : ∀ c1, (s.drop ((s.takeWhile Char.isDigit).length)).head? = some c1 →
      c1 ≠ ')') : parseRec s = none := by
  unfold parseRec
  by_cases hds : (s.takeWhile Char.isDigit).isEmpty
  · rw [if_pos hds]
  · rw [if_neg hds]
    cases hd : s.drop ((s.takeWhile Char.isDigit).length) with
    | nil => rfl
    | cons c1 s2 =>
      dsimp only
      rw [if_neg (h c1 (by rw [hd]; rfl))]

theorem parseRec_none_empty {s : Text}
    (h : (s.takeWhile Char.isDigit).isEmpty = true) : parseRec s = none := by
  unfold parseRec
  rw [if_pos h]

theorem fixRecF_cons_neg {f : Nat} {b : Bool} {c : Char} (rest : Text)
    (h : ¬ (b = true ∧ c = '(')) :
    fixRecF (f + 1) b (c :: rest) = c :: fixRecF f (c == '\n') rest := by
  show (if b = true ∧ c = '(' then _ else c :: fixRecF f (c == '\n') rest) = _
  rw [if_neg h]

theorem fixRecF_cons_none {f : Nat} {rest : Text} (h : parseRec rest = none) :
    fixRecF (f + 1) true ('(' :: rest) = '(' :: fixRecF f false rest := by
  show (if true = true ∧ '(' = '(' then
      match parseRec rest with
      | some (ds, rest2, nl) => '(' :: (ds ++ ')' :: ' ' :: fixRecF f nl rest2)
      | none => '(' :: fixRecF f ('(' == '\n') rest
    else '(' :: fixRecF f ('(' == '\n') rest) = _
  rw [if_pos ⟨rfl, rfl⟩, h]
  rfl

/-- The output of the substitution scan always begins with the first input
character. -/
theorem fixRecF_head (f : Nat) (b : Bool) (c : Char) (rest : Text) :
    ∃ w, fixRecF (f + 1) b (c :: rest) = c :: w := by
  by_cases hcond : b = true ∧ c = '('
  · cases hp : parseRec rest with
    | some p =>
      obtain ⟨ds, r2, nl⟩ := p
      refine ⟨ds ++ ')' :: ' ' :: fixRecF f nl r2, ?_⟩
      obtain ⟨hb, hc⟩ := hcond
      subst hb hc
      show (if true = true ∧ '(' = '(' then
          match parseRec rest with
          | some (ds, rest2, nl) => '(' :: (ds ++ ')' :: ' ' :: fixRecF f nl rest2)
          | none => '(' :: fixRecF f ('(' == '\n') rest
        else '(' :: fixRecF f ('(' == '\n') rest) = _
      rw [if_pos ⟨rfl, rfl⟩, hp]
    | none =>
      obtain ⟨hb, hc⟩ := hcond
      subst hb hc
      exact ⟨fixRecF f false rest, fixRecF_cons_none hp⟩
  · exact ⟨fixRecF f (c == '\n') rest, fixRecF_cons_neg rest hcond⟩

/-- Scan decomposition: past an arbitrary document prefix ending at a line
boundary, the substitution scan processes the following block starting in
line-start state (the newline is either copied or consumed as the tail of a
preceding match's `\s*`, which also leaves the scanner at a line start). -/
theorem fixRecF_split : ∀ (fuel : Nat) (b : Bool) (u z : Text),
    (u ++ '\n' :: z).length ≤ fuel →
    (∀ x, z.head? = some x → isPyWS x = false) →
    ∃ v f2, fixRecF fuel b (u ++ '\n' :: z) = v ++ fixRecF f2 true z ∧
      z.length ≤ f2 := by
  intro fuel
  induction fuel with
  | zero =>
    intro b u z hlen _
    simp at hlen
  | succ f ih =>
    intro b u z hlen hz
    cases u with
    | nil =>
      refine ⟨['\n'], f, ?_, ?_⟩
      · rw [List.nil_append,
          fixRecF_cons_neg z (fun h => absurd h.2 (by decide))]
        rfl
      · simp at hlen
        omega
    | cons c u2 =>
      rw [List.cons_append]
      have hlen2 : (u2 ++ '\n' :: z).length ≤ f := by
        simp at hlen ⊢
        omega
      by_cases hcond : b = true ∧ c = '('
      · obtain ⟨hb, hc⟩ := hcond
        subst hb hc
        by_cases hdigall : ∀ x ∈ u2, Char.isDigit x = true
        · -- the digit run eats all of u2 and hits the newline: no ')'
          have htw : (u2 ++ '\n' :: z).takeWhile Char.isDigit = u2 :=
            takeWhile_app_exact hdigall (by
              intro c1 hc1
              simp only [List.head?_cons, Option.some.injEq] at hc1
              subst hc1
              decide)
          have hpr : parseRec (u2 ++ '\n' :: z) = none := by
            apply parseRec_none
            intro c1 hc1
            rw [htw, List.drop_left u2 _] at hc1
            simp only [List.head?_cons, Option.some.injEq] at hc1
            subst hc1
            decide
          rw [fixRecF_cons_none hpr]
          obtain ⟨v, f2, hv, hf2⟩ := ih false u2 z hlen2 hz
          exact ⟨'(' :: v, f2, by rw [hv]; rfl, hf2⟩
        · set ds := u2.takeWhile Char.isDigit with hds
          have hlt : ds.length < u2.length := takeWhile_len_lt hdigall
          have htw : (u2 ++ '\n' :: z).takeWhile Char.isDigit = ds :=
            takeWhile_append_stop _ hlt
          have hdrop : (u2 ++ '\n' :: z).drop ds.length =
              u2.drop ds.length ++ '\n' :: z :=
            drop_append_le _ (by omega)
          by_cases hempty : ds.isEmpty
          · have hpr : parseRec (u2 ++ '\n' :: z) = none :=
              parseRec_none_empty (by rw [htw]; exact hempty)
            rw [fixRecF_cons_none hpr]
            obtain ⟨v, f2, hv, hf2⟩ := ih false u2 z hlen2 hz
            exact ⟨'(' :: v, f2, by rw [hv]; rfl, hf2⟩
          · cases hu2d : u2.drop ds.length with
            | nil =>
              exfalso
              have := congrArg List.length hu2d
              rw [List.length_drop] at this
              simp at this
              omega
            | cons d0 u3 =>
              have hu2 : u2 = ds ++ d0 :: u3 := by
                conv_lhs => rw [takeWhile_drop_split Char.isDigit u2]
                rw [← hds, hu2d]
              by_cases hd0 : d0 = ')'
              · subst hd0
                have hshape : u2 ++ '\n' :: z = ds ++ ')' :: (u3 ++ '\n' :: z) := by
                  rw [hu2]
                  simp
                by_cases hwall : ∀ x ∈ u3, isPyWS x = true
                · -- whitespace runs to the newline: the match consumes it and
                  -- resumes at the line start of z
                  have hshape2 : u2 ++ '\n' :: z =
                      ds ++ ')' :: ((u3 ++ ['\n']) ++ z) := by
                    rw [hshape]
                    simp
                  have hpr : parseRec (u2 ++ '\n' :: z) =
                      some (ds, z, (u3 ++ ['\n']).getLast? == some '\n') := by
                    rw [hshape2]
                    apply parseRec_exact (by simpa using hempty)
                      (fun x hx => List.mem_takeWhile_imp (hds ▸ hx))
                    · intro x hx
                      rcases List.mem_append.mp hx with hx | hx
                      · exact hwall x hx
                      · simp at hx
                        subst hx
                        decide
                    · exact hz
                  rw [List.getLast?_concat, show ((some '\n' == some '\n') : Bool) = true
                    from rfl] at hpr
                  rw [fixRecF_cons_match hpr]
                  refine ⟨'(' :: ds ++ [')', ' '], f, by simp, by
                    simp at hlen
                    omega⟩
                · -- whitespace stops inside u3: the match resumes mid-prefix
                  set ws3 := u3.takeWhile isPyWS with hws3
                  set u4 := u3.drop ws3.length with hu4
                  have hlt3 : ws3.length < u3.length := takeWhile_len_lt hwall
                  have hu4head : ∀ x, u4.head? = some x → isPyWS x = false := by
                    intro x hx
                    apply @dropWhile_head_false isPyWS u3 x
                    rw [dropWhile_eq_drop, ← hws3, ← hu4]
                    exact hx
                  have hshape3 : u2 ++ '\n' :: z =
                      ds ++ ')' :: (ws3 ++ (u4 ++ '\n' :: z)) := by
                    rw [hshape]
                    congr 1
                    congr 1
                    conv_lhs => rw [show u3 ++ '\n' :: z =
                      (ws3 ++ u4) ++ '\n' :: z from by
                        rw [hws3, hu4, ← takeWhile_drop_split]]
                    simp
                  have hpr : parseRec (u2 ++ '\n' :: z) =
                      some (ds, u4 ++ '\n' :: z, ws3.getLast? == some '\n') := by
                    rw [hshape3]
                    apply parseRec_exact (by simpa using hempty)
                      (fun x hx => List.mem_takeWhile_imp (hds ▸ hx))
                      (fun x hx => List.mem_takeWhile_imp (hws3 ▸ hx))
                    intro x hx
                    cases hu4c : u4 with
                    | nil =>
                      exfalso
                      have hl0 := congrArg List.length hu4c
                      rw [hu4, List.length_drop] at hl0
                      simp at hl0
                      omega
                    | cons d1 u5 =>
                      rw [hu4c] at hx
                      simp only [List.cons_append, List.head?_cons,
                        Option.some.injEq] at hx
                      subst hx
                      exact hu4head _ (by rw [hu4c]; rfl)
                  rw [fixRecF_cons_match hpr]
                  have hlen4 : (u4 ++ '\n' :: z).length ≤ f := by
                    have hle3 : u4.length ≤ u3.length := by
                      rw [hu4, List.length_drop]
                      omega
                    have hlu2 : u2.length = ds.length + 1 + u3.length := by
                      rw [hu2]
                      simp
                      omega
                    simp at hlen ⊢
                    omega
                  obtain ⟨v, f2, hv, hf2⟩ :=
                    ih (ws3.getLast? == some '\n') u4 z hlen4 hz
                  refine ⟨'(' :: ds ++ ')' :: ' ' :: v, f2, ?_, hf2⟩
                  rw [hv]
                  simp
              · -- the character after the digits is not ')': no match
                have hpr : parseRec (u2 ++ '\n' :: z) = none := by
                  apply parseRec_none
                  intro c1 hc1
                  rw [htw, hdrop, hu2d] at hc1
                  simp only [List.cons_append, List.head?_cons,
                    Option.some.injEq] at hc1
                  subst hc1
                  exact hd0
                rw [fixRecF_cons_none hpr]
                obtain ⟨v, f2, hv, hf2⟩ := ih false u2 z hlen2 hz
                exact ⟨'(' :: v, f2, by rw [hv]; rfl, hf2⟩
      · rw [fixRecF_cons_neg _ hcond]
        obtain ⟨v, f2, hv, hf2⟩ := ih (c == '\n') u2 z hlen2 hz
        exact ⟨c :: v, f2, by rw [hv]; rfl, hf2⟩

/-- At a line start, a `(digits)` group followed by any whitespace run and a
non-whitespace character is rewritten to `(digits) ` with that character
joined on. -/
theorem fixRecF_recital_start {ds ws tail : Text} {c : Char} (hds : ds ≠ [])
    (hdig : ∀ d ∈ ds, Char.isDigit d = true) (hws : ∀ x ∈ ws, isPyWS x = true)
    (hc : isPyWS c = false) {f2 : Nat}
    (hf2 : ('(' :: ds ++ ')' :: (ws ++ c :: tail)).length ≤ f2) :
    ∃ w, fixRecF f2 true ('(' :: ds ++ ')' :: (ws ++ c :: tail)) =
      '(' :: ds ++ ')' :: ' ' :: c :: w := by
  have hlen : ('(' :: ds ++ ')' :: (ws ++ c :: tail)).length =
      ds.length + ws.length + tail.length + 3 := by
    simp
    omega
  cases f2 with
  | zero => omega
  | succ f =>
    have hpr : parseRec (ds ++ ')' :: (ws ++ c :: tail)) =
        some (ds, c :: tail, ws.getLast? == some '\n') :=
      parseRec_exact hds hdig hws (by
        intro x hx
        simp only [List.head?_cons, Option.some.injEq] at hx
        subst hx
        exact hc)
    rw [show ('(' :: ds ++ ')' :: (ws ++ c :: tail)) =
      '(' :: (ds ++ ')' :: (ws ++ c :: tail)) from rfl]
    rw [fixRecF_cons_match hpr]
    cases f with
    | zero =>
      exfalso
      simp at hlen hf2
    | succ f3 =>
      obtain ⟨w, hw⟩ := fixRecF_head f3 (ws.getLast? == some '\n') c tail
      refine ⟨w, ?_⟩
      rw [hw]
      rfl

/-- At a line start, a `(digits)` group followed only by whitespace to the
end of text is rewritten to `(digits) ` with a trailing space. -/
theorem fixRecF_recital_end {ds ws : Text} (hds : ds ≠ [])
    (hdig : ∀ d ∈ ds, Char.isDigit d = true) (hws : ∀ x ∈ ws, isPyWS x = true)
    {f2 : Nat} (hf2 : ('(' :: ds ++ ')' :: ws).length ≤ f2) :
    fixRecF f2 true ('(' :: ds ++ ')' :: ws) = '(' :: ds ++ [')', ' '] := by
  cases f2 with
  | zero =>
    exfalso
    simp at hf2
  | succ f =>
    have hpr : parseRec (ds ++ ')' :: ws) =
        some (ds, [], ws.getLast? == some '\n') := by
      have h := @parseRec_exact ds ws [] hds hdig hws
        (by intro x hx; simp at hx)
      rw [List.append_nil] at h
      exact h
    rw [show ('(' :: ds ++ ')' :: ws) = '(' :: (ds ++ ')' :: ws) from rfl]
    rw [fixRecF_cons_match hpr]
    rw [fixRecF_nil]
    rfl

/-! ## Claim theorems -/

/-- C1, as stated: the definitions window is delimited by the first
line-start occurrences of the headings `Article 4` and `Article 5`.  This is
false: the code searches for the newline-delimited strings
`"\nArticle 4\n"` / `"\nArticle 5\n"`, so a heading at the very start of the
text is not found.  At the counterexample the code returns no definitions
while the claimed window contains one. -/
theorem claim1_window_cex :
    defsOf (strL "Article 4\n(1) 'a' b\nArticle 5\nx") = [] ∧
    specDefsC1 (strL "Article 4\n(1) 'a' b\nArticle 5\nx") = [(1, ['a'])] ∧
    defsOf (strL "Article 4\n(1) 'a' b\nArticle 5\nx") ≠
      specDefsC1 (strL "Article 4\n(1) 'a' b\nArticle 5\nx") := by
  refine ⟨by decide, by decide, by decide⟩

/-- C1 (amended): the window is delimited by `text.find('\nArticle 4\n')` and
`text.find('\nArticle 5\n')` (a heading at the very start of the text, or one
not followed by a newline, is not found).  If either search fails the
definitions list is empty, and every emitted definition arises from a
definition-pattern match lying entirely between the two found positions. -/
theorem claim1_window (t : Text) :
    ((findSub head4 t = none ∨ findSub head5 t = none) → defsOf t = []) ∧
    (∀ e, e ∈ defsOf t →
      ∃ a b p L, findSub head4 t = some a ∧ findSub head5 t = some b ∧
        a ≤ p ∧ p + L ≤ b ∧ defMatch (t.drop p) = some (e, L)) := by
  constructor
  · intro h
    unfold defsOf
    cases hf4 : findSub head4 t with
    | none => rfl
    | some a =>
      cases hf5 : findSub head5 t with
      | none => rfl
      | some b =>
        rcases h with h | h
        · rw [hf4] at h; exact absurd h (by simp)
        · rw [hf5] at h; exact absurd h (by simp)
  · intro e he
    unfold defsOf at he
    cases hf4 : findSub head4 t with
    | none => rw [hf4] at he; simp at he
    | some a =>
      cases hf5 : findSub head5 t with
      | none => rw [hf4, hf5] at he; simp at he
      | some b =>
        rw [hf4, hf5] at he
        obtain ⟨q, L, hqL, hdm⟩ := defScanF_sound _ _ e he
        have hw : sliceT t a b = (t.drop a).take (b - a) := rfl
        have hdropq : (sliceT t a b).drop q = (t.drop (a + q)).take (b - a - q) := by
          rw [hw, List.drop_take, List.drop_drop]
        have hsplit : t.drop (a + q) =
            (sliceT t a b).drop q ++ (t.drop (a + q)).drop (b - a - q) := by
          rw [hdropq, List.take_append_drop]
        have hdm2 : defMatch (t.drop (a + q)) = some (e, L) := by
          rw [hsplit]
          exact defMatch_append hdm
        have hwlen : (sliceT t a b).length ≤ b - a := by
          rw [hw, List.length_take]
          omega
        have hL1 : 1 ≤ L := (defMatch_bounds hdm).1
        exact ⟨a, b, a + q, L, rfl, rfl, by omega, by omega, hdm2⟩

/-- Witness for C1 (amended): both conclusions at concrete inputs. -/
theorem claim1_window_witness :
    defsOf (strL "+") = [] ∧
    (∃ a b p L,
      findSub head4 (strL "x\nArticle 4\n(1) 'q' m\nArticle 5\ny") = some a ∧
      findSub head5 (strL "x\nArticle 4\n(1) 'q' m\nArticle 5\ny") = some b ∧
      a ≤ p ∧ p + L ≤ b ∧
      defMatch ((strL "x\nArticle 4\n(1) 'q' m\nArticle 5\ny").drop p) =
        some ((1, strL "q"), L)) :=
  ⟨(claim1_window (strL "+")).1 (Or.inl (by decide)),
   (claim1_window (strL "x\nArticle 4\n(1) 'q' m\nArticle 5\ny")).2
     (1, strL "q") (by decide)⟩

/-- C2: the extractor's article list has one entry per number (first match in
scan order wins) and is sorted ascending by number. -/
theorem claim2_articles (t : Text) :
    List.Sorted (· ≤ ·) ((articlesOf t).map Prod.fst) ∧
    ((articlesOf t).map Prod.fst).Nodup ∧
    ∀ n ti, ((n, ti) ∈ articlesOf t ↔
      (rawArticles t).find? (fun e => e.1 == n) = some (n, ti)) := by
  have hperm := List.perm_insertionSort articleLE (dedupArts [] (rawArticles t))
  refine ⟨?_, ?_, ?_⟩
  · have hs := List.sorted_insertionSort articleLE (dedupArts [] (rawArticles t))
    exact List.Pairwise.map Prod.fst (fun a b h => h) hs
  · have hn := (dedupArts_nodup (rawArticles t) []).1
    exact (List.Perm.nodup_iff (hperm.map Prod.fst)).mpr hn
  · intro n ti
    rw [show articlesOf t =
      List.insertionSort articleLE (dedupArts [] (rawArticles t)) from rfl]
    rw [hperm.mem_iff]
    exact (dedupArts_mem (rawArticles t) [] n ti).1 (by simp)

/-- C3, as stated: the normalization is idempotent on every input.  This is
false for two reasons: removing `|` characters can create a box-border
pattern that only the second pass deletes, and the recital substitution can
leave a trailing space that the second pass's per-line strip removes. -/
theorem claim3_idem_cex :
    cleanText (cleanText (strL "(1)\n(2)")) ≠ cleanText (strL "(1)\n(2)") ∧
    cleanText (cleanText (strL "+|-|+")) ≠ cleanText (strL "+|-|+") := by
  refine ⟨by decide, by decide⟩

/-- C3 (amended): the normalization is idempotent on every input containing
none of the characters `+`, `|`, `(` (the characters whose rewriting steps
can feed each other across passes). -/
theorem claim3_idem (t : Text) (hp : '+' ∉ t) (hb : '|' ∉ t) (hl : '(' ∉ t) :
    cleanText (cleanText t) = cleanText t := by
  have e1 := cleanText_eq_tail hp hb hl
  have hyp : '+' ∉ stripLead (collapseNL (normalizeLines t)) := by
    intro h
    rcases mem_cleanText_tail h with h | h | h
    · exact hp h
    · exact absurd h (by decide)
    · exact absurd h (by decide)
  have hyb : '|' ∉ stripLead (collapseNL (normalizeLines t)) := by
    intro h
    rcases mem_cleanText_tail h with h | h | h
    · exact hb h
    · exact absurd h (by decide)
    · exact absurd h (by decide)
  have hyl : '(' ∉ stripLead (collapseNL (normalizeLines t)) := by
    intro h
    rcases mem_cleanText_tail h with h | h | h
    · exact hl h
    · exact absurd h (by decide)
    · exact absurd h (by decide)
  rw [e1, cleanText_eq_tail hyp hyb hyl]
  exact cleanTail_fixed t

/-- Witness for C3 (amended) at a concrete input. -/
theorem claim3_idem_witness :
    cleanText (cleanText (strL "a\n\n\n\nb")) = cleanText (strL "a\n\n\n\nb") :=
  claim3_idem (strL "a\n\n\n\nb") (by decide) (by decide) (by decide)

/-- C4, as stated: the chapter title is captured up to the next blank line,
so a two-line title is captured in full.  This is false: without DOTALL the
lazy group cannot cross a newline, and under MULTILINE the `$` of the
lookahead already matches at the first line end, so the title is truncated to
its first physical line. -/
theorem claim4_title_cex :
    chaptersOf (strL "CHAPTER I\n\nGeneral\nprovisions\n\nrest") =
      [(strL "I", strL "General")] ∧
    specChaptersC4 (strL "CHAPTER I\n\nGeneral\nprovisions\n\nrest") =
      [(strL "I", strL "General\nprovisions")] ∧
    chaptersOf (strL "CHAPTER I\n\nGeneral\nprovisions\n\nrest") ≠
      specChaptersC4 (strL "CHAPTER I\n\nGeneral\nprovisions\n\nrest") := by
  refine ⟨by decide, by decide, by decide⟩

/-- C4 (amended): each chapter entry matches `CHAPTER <roman>` at line start
followed by exactly one blank line and a non-empty title, and the captured
title is exactly the rest of the single physical line following the blank
line (a title spanning a second line is truncated to its first line). -/
theorem claim4_title (t : Text) : chaptersOf t = amdChaptersOf t :=
  chapScan_eq_amd t.length true t

/-- C5: the range fields are "none" exactly when the distinct-number set is
empty, and otherwise `min-max` over the distinct set regardless of gaps;
recitals are computed identically. -/
theorem claim5_ranges (t : Text) :
    ((statsOf t).article_range = strL "none" ↔ uniqArts t = []) ∧
    (∀ n rest, uniqArts t = n :: rest →
      (statsOf t).article_range =
        natRepr (rest.foldl Nat.min n) ++ '-' :: natRepr (rest.foldl Nat.max n)) ∧
    ((statsOf t).recital_range = strL "none" ↔ uniqRecs t = []) ∧
    (∀ n rest, uniqRecs t = n :: rest →
      (statsOf t).recital_range =
        natRepr (rest.foldl Nat.min n) ++ '-' :: natRepr (rest.foldl Nat.max n)) := by
  refine ⟨rangeText_empty_iff _, ?_, rangeText_empty_iff _, ?_⟩
  · intro n rest h
    show rangeText (uniqArts t) = _
    rw [h]
    rfl
  · intro n rest h
    show rangeText (uniqRecs t) = _
    rw [h]
    rfl

/-- Witness for C5 at a concrete text with gaps in both number sets. -/
theorem claim5_ranges_witness :
    (statsOf (strL "Article 3\nx\nArticle 7\n(4) r\n(9) r")).article_range =
      natRepr ([7].foldl Nat.min 3) ++ '-' :: natRepr ([7].foldl Nat.max 3) ∧
    (statsOf (strL "Article 3\nx\nArticle 7\n(4) r\n(9) r")).recital_range =
      natRepr ([9].foldl Nat.min 4) ++ '-' :: natRepr ([9].foldl Nat.max 4) :=
  ⟨(claim5_ranges (strL "Article 3\nx\nArticle 7\n(4) r\n(9) r")).2.1 3 [7] (by decide),
   (claim5_ranges (strL "Article 3\nx\nArticle 7\n(4) r\n(9) r")).2.2.2 4 [9] (by decide)⟩

/-- C6: the statistics are computed on exactly the text written out:
`total_chars` is its length and `total_lines` its newline-segment count. -/
theorem claim6_stats (raw : Text) :
    (cleanRun raw).2.total_chars = (cleanRun raw).1.length ∧
    (cleanRun raw).2.total_lines = (splitLines (cleanRun raw).1).length :=
  ⟨rfl, rfl⟩

/-- C7, as stated: three or more consecutive blank lines in raw input become
exactly one blank line in the output.  This is false at the start of the
document (leading blank lines are stripped entirely) and after a recital
marker (the substitution's `\s*` consumes the whole run): in both
counterexamples the output contains no newline at all. -/
theorem claim7_collapse_cex :
    cleanText (strL "\n\n\n\nx") = strL "x" ∧
    '\n' ∉ cleanText (strL "\n\n\n\nx") ∧
    cleanText (strL "(1)\n\n\n\nb") = strL "(1) b" ∧
    '\n' ∉ cleanText (strL "(1)\n\n\n\nb") := by
  refine ⟨by decide, by decide, by decide, by decide⟩

/-- C7 (amended): in the newline-collapse step every run of three or more
newlines becomes exactly two and a run of exactly two is unchanged; and
end to end, a run of three or more newlines lying between two plain
non-empty lines becomes exactly one blank line (runs at the start of the
document or following a recital marker are excluded). -/
theorem claim7_collapse :
    (∀ (a b : Text) (k : Nat), '\n' ∉ a → b.head? ≠ some '\n' → 3 ≤ k →
      collapseNL (a ++ List.replicate k '\n' ++ b) =
        a ++ List.replicate 2 '\n' ++ collapseNL b) ∧
    (∀ (a b : Text), '\n' ∉ a → b.head? ≠ some '\n' →
      collapseNL (a ++ List.replicate 2 '\n' ++ b) =
        a ++ List.replicate 2 '\n' ++ collapseNL b) ∧
    (∀ (a b : Text) (k : Nat), plainLine a → plainLine b → a ≠ [] → 3 ≤ k →
      cleanText (a ++ List.replicate k '\n' ++ b) = a ++ '\n' :: '\n' :: b) := by
  refine ⟨?_, ?_, ?_⟩
  · intro a b k ha hb hk
    have h := collapseNL_run_decomp ha
      (fun c0 hc0 he => hb (by rw [hc0, he])) k
    rw [h, show min k 2 = 2 from by omega]
  · intro a b ha hb
    have h := collapseNL_run_decomp ha
      (fun c0 hc0 he => hb (by rw [hc0, he])) 2
    rw [h]
    rfl
  · intro a b k ha hb hane hk
    exact clean_plain_run ha hb hane hk

/-- Witness for C7 (amended): all three conclusions at concrete inputs. -/
theorem claim7_collapse_witness :
    collapseNL (strL "a" ++ List.replicate 5 '\n' ++ strL "b") =
      strL "a" ++ List.replicate 2 '\n' ++ collapseNL (strL "b") ∧
    collapseNL (strL "a" ++ List.replicate 2 '\n' ++ strL "b") =
      strL "a" ++ List.replicate 2 '\n' ++ collapseNL (strL "b") ∧
    cleanText (strL "a" ++ List.replicate 5 '\n' ++ strL "b") =
      strL "a" ++ '\n' :: '\n' :: strL "b" :=
  ⟨claim7_collapse.1 (strL "a") (strL "b") 5 (by decide) (by decide) (by decide),
   claim7_collapse.2.1 (strL "a") (strL "b") (by decide) (by decide),
   claim7_collapse.2.2 (strL "a") (strL "b") 5 (by decide) (by decide) (by decide)
     (by decide)⟩

/-- C9: in the recital-substitution step, for any document in which some line
consists of `(digits)` followed only by whitespace (spaces, tabs or
newlines, in any mixture) before the next non-whitespace character, the
step's output contains `(digits) ` with that character joined onto the same
line (the concrete conjunct shows the line count decreasing beyond what
blank-line collapsing could do); and when only whitespace follows to the end
of text, the output ends with `(digits) ` carrying a trailing space.  The
line-start position is either the start of the text or any position after a
newline, with an arbitrary document prefix before it. -/
theorem claim9_recital :
    (∀ (pre ds ws tail : Text) (c : Char),
      (pre = [] ∨ ∃ u, pre = u ++ ['\n']) →
      ds ≠ [] → (∀ d ∈ ds, Char.isDigit d = true) →
      (∀ x ∈ ws, isPyWS x = true) → isPyWS c = false →
      ∃ v w, fixRec (pre ++ '(' :: ds ++ ')' :: (ws ++ c :: tail)) =
        v ++ '(' :: ds ++ ')' :: ' ' :: c :: w) ∧
    (∀ (pre ds ws : Text),
      (pre = [] ∨ ∃ u, pre = u ++ ['\n']) →
      ds ≠ [] → (∀ d ∈ ds, Char.isDigit d = true) →
      (∀ x ∈ ws, isPyWS x = true) →
      ∃ v, fixRec (pre ++ '(' :: ds ++ ')' :: ws) =
        v ++ '(' :: ds ++ [')', ' ']) ∧
    (fixRec (strL "x\n(12)\n\nAbc") = strL "x\n(12) Abc" ∧
      (splitLines (strL "x\n(12)\n\nAbc")).length = 4 ∧
      (splitLines (fixRec (strL "x\n(12)\n\nAbc"))).length = 2) := by
  refine ⟨?_, ?_, by decide, by decide, by decide⟩
  · intro pre ds ws tail c hpre hds hdig hws hc
    have hzhead : ∀ x, ('(' :: ds ++ ')' :: (ws ++ c :: tail)).head? = some x →
        isPyWS x = false := by
      intro x hx
      simp only [List.cons_append, List.head?_cons, Option.some.injEq] at hx
      subst hx
      decide
    rcases hpre with h | ⟨u, h⟩
    · subst h
      rw [List.nil_append]
      unfold fixRec
      obtain ⟨w, hw⟩ :=
        fixRecF_recital_start hds hdig hws hc (Nat.le_refl _)
      exact ⟨[], w, by rw [hw]; rfl⟩
    · subst h
      rw [List.append_assoc, List.append_assoc, List.singleton_append]
      unfold fixRec
      obtain ⟨v, f2, hv, hf2⟩ :=
        fixRecF_split _ true u ('(' :: ds ++ ')' :: (ws ++ c :: tail))
          (Nat.le_refl _) hzhead
      obtain ⟨w, hw⟩ := fixRecF_recital_start hds hdig hws hc hf2
      exact ⟨v, w, by rw [hv, hw, List.append_assoc]⟩
  · intro pre ds ws hpre hds hdig hws
    have hzhead : ∀ x, ('(' :: ds ++ ')' :: ws).head? = some x →
        isPyWS x = false := by
      intro x hx
      simp only [List.cons_append, List.head?_cons, Option.some.injEq] at hx
      subst hx
      decide
    rcases hpre with h | ⟨u, h⟩
    · subst h
      rw [List.nil_append]
      unfold fixRec
      exact ⟨[], by rw [fixRecF_recital_end hds hdig hws (Nat.le_refl _)]; rfl⟩
    · subst h
      rw [List.append_assoc, List.append_assoc, List.singleton_append]
      unfold fixRec
      obtain ⟨v, f2, hv, hf2⟩ :=
        fixRecF_split _ true u ('(' :: ds ++ ')' :: ws) (Nat.le_refl _) hzhead
      exact ⟨v, by rw [hv, fixRecF_recital_end hds hdig hws hf2,
        List.append_assoc]⟩

/-- Witness for C9: a mid-document recital whose whitespace run mixes
spaces and newlines followed by further text, and an end-of-text recital. -/
theorem claim9_recital_witness :
    (∃ v w, fixRec (['y', '\n'] ++ '(' :: ['3'] ++ ')' ::
        ([' ', '\n', ' '] ++ 'q' :: strL "Q\nrest")) =
      v ++ '(' :: ['3'] ++ ')' :: ' ' :: 'q' :: w) ∧
    (∃ v, fixRec ([] ++ '(' :: ['7'] ++ ')' :: ['\n', '\t']) =
      v ++ '(' :: ['7'] ++ [')', ' ']) :=
  ⟨claim9_recital.1 ['y', '\n'] ['3'] [' ', '\n', ' '] (strL "Q\nrest") 'q'
      (Or.inr ⟨['y'], rfl⟩) (by decide) (by decide) (by decide) (by decide),
   claim9_recital.2.1 [] ['7'] ['\n', '\t'] (Or.inl rfl) (by decide)
      (by decide) (by decide)⟩

/-- C10: when both newline-delimited headings are found but the `Article 5`
position precedes the `Article 4` position, the slice is empty and the
definitions list is empty, regardless of patterns between the headings. -/
theorem claim10_reversed (t : Text) (i j : Nat) (h4 : findSub head4 t = some i)
    (h5 : findSub head5 t = some j) (hlt : j < i) : defsOf t = [] := by
  unfold defsOf
  rw [h4, h5]
  dsimp only
  have hsl : sliceT t i j = [] := by
    unfold sliceT
    rw [show j - i = 0 from by omega]
    rfl
  rw [hsl]
  rfl

/-- Witness for C10: a text where `Article 5` comes first and a definition
pattern sits between the two headings, yet the output is empty. -/
theorem claim10_reversed_witness :
    defsOf (strL "q\nArticle 5\n(1) 'a' b\nArticle 4\nz") = [] ∧
    defScan (sliceT (strL "q\nArticle 5\n(1) 'a' b\nArticle 4\nz") 1 21) ≠ [] :=
  ⟨claim10_reversed (strL "q\nArticle 5\n(1) 'a' b\nArticle 4\nz") 21 1
      (by decide) (by decide) (by decide),
   by decide⟩
